import Mathlib

/-!
Shallow embedding of `grammar.py`, a miniature backtracking parsing library.

Python strings are modelled as `List Char`; the regular-expression primitive
wrapped by `Terminal` (the only external collaborator, CPython's `re`) is
modelled by the first-order type `Prim` together with `primExec`, which
implements the documented contract "attempt an anchored match at an offset,
return the number of characters consumed, or fail".

Python generators that are fully materialised by their consumers either raise
`BadState` before their first yield or run to completion, so a `matches`
enumeration is embedded as `Except BadS (List (Tree × Nat))`.  Recursion
through the grammar is unbounded in the source (a rule may reference itself),
so the engine takes a fuel parameter; `none` means the computation was not
assigned a result at that fuel (or a rule name failed to resolve, Python's
`KeyError`, which is likewise not a `BadState`).
-/

/-- Decidable equality for `Except`, used to evaluate the engine's results on
concrete inputs. -/
instance exceptDecEq {ε α : Type} [DecidableEq ε] [DecidableEq α] :
    DecidableEq (Except ε α) := fun a b =>
  match a, b with
  | .error e1, .error e2 =>
    if h : e1 = e2 then isTrue (by rw [h])
    else isFalse (fun hh => by cases hh; exact h rfl)
  | .ok v1, .ok v2 =>
    if h : v1 = v2 then isTrue (by rw [h])
    else isFalse (fun hh => by cases hh; exact h rfl)
  | .error _, .ok _ => isFalse (fun hh => by cases hh)
  | .ok _, .error _ => isFalse (fun hh => by cases hh)

namespace GrammarPy

/-- Input strings are lists of characters. -/
abbrev Str := List Char

/-- Whitespace test used by the model of the `\s` character class. -/
def isWs (c : Char) : Bool := c = ' ' || c = '\t' || c = '\n' || c = '\r'

/-- First-order model of the compiled regular expressions the source builds:
literal strings, and `Terminal.padded`'s wrapping of a pattern in `\s*…\s*`. -/
inductive Prim where
  | lit : List Char → Prim
  | eofP : Prim
  | padded : Prim → Prim
  deriving DecidableEq, Repr

/-- Does the first list occur at the head of the second? -/
def litMatch : List Char → List Char → Bool
  | [], _ => true
  | _ :: _, [] => false
  | c :: cs, d :: ds => c = d && litMatch cs ds

/-- The anchored-match contract of the terminal primitive: given the rest of
the input (from the match offset on), return how many characters the match
consumes, or `none` on failure. -/
def primExec : Prim → List Char → Option Nat
  | .lit cs, rem => if litMatch cs rem then some cs.length else none
  | .eofP, rem => if rem.isEmpty then some 0 else none
  | .padded p, rem =>
    let a := (rem.takeWhile isWs).length
    match primExec p (rem.drop a) with
    | some k =>
      let b := (((rem.drop a).drop k).takeWhile isWs).length
      some (a + k + b)
    | none => none

mutual
/-- The pattern hierarchy (`State` and its subclasses in the source).  Every
pattern carries the optional name bound at `Grammar` registration time. -/
inductive Pat where
  | terminal : Option String → Prim → Pat
  | empty : Option String → Pat
  | seq : Option String → List Ref → Pat
  | pipe : Option String → List Ref → Pat
  | star : Option String → List Ref → Pat
  | plus : Option String → List Ref → Pat

/-- A sub-pattern reference: a rule name to be looked up in the grammar, or a
direct (anonymous) pattern held by value. -/
inductive Ref where
  | name : String → Ref
  | pat : Pat → Ref
end

mutual
/-- Decidable equality of patterns (hand-written: the mutual nested inductive
does not support deriving). -/
def decEqPat : (a b : Pat) → Decidable (a = b)
  | .terminal n1 p1, .terminal n2 p2 =>
    if h1 : n1 = n2 then
      if h2 : p1 = p2 then isTrue (by rw [h1, h2])
      else isFalse (fun h => by cases h; exact h2 rfl)
    else isFalse (fun h => by cases h; exact h1 rfl)
  | .empty n1, .empty n2 =>
    if h1 : n1 = n2 then isTrue (by rw [h1])
    else isFalse (fun h => by cases h; exact h1 rfl)
  | .seq n1 l1, .seq n2 l2 =>
    if h1 : n1 = n2 then
      match decEqRefList l1 l2 with
      | isTrue h2 => isTrue (by rw [h1, h2])
      | isFalse h2 => isFalse (fun h => by cases h; exact h2 rfl)
    else isFalse (fun h => by cases h; exact h1 rfl)
  | .pipe n1 l1, .pipe n2 l2 =>
    if h1 : n1 = n2 then
      match decEqRefList l1 l2 with
      | isTrue h2 => isTrue (by rw [h1, h2])
      | isFalse h2 => isFalse (fun h => by cases h; exact h2 rfl)
    else isFalse (fun h => by cases h; exact h1 rfl)
  | .star n1 l1, .star n2 l2 =>
    if h1 : n1 = n2 then
      match decEqRefList l1 l2 with
      | isTrue h2 => isTrue (by rw [h1, h2])
      | isFalse h2 => isFalse (fun h => by cases h; exact h2 rfl)
    else isFalse (fun h => by cases h; exact h1 rfl)
  | .plus n1 l1, .plus n2 l2 =>
    if h1 : n1 = n2 then
      match decEqRefList l1 l2 with
      | isTrue h2 => isTrue (by rw [h1, h2])
      | isFalse h2 => isFalse (fun h => by cases h; exact h2 rfl)
    else isFalse (fun h => by cases h; exact h1 rfl)
  | .terminal _ _, .empty _ => isFalse (fun h => by cases h)
  | .terminal _ _, .seq _ _ => isFalse (fun h => by cases h)
  | .terminal _ _, .pipe _ _ => isFalse (fun h => by cases h)
  | .terminal _ _, .star _ _ => isFalse (fun h => by cases h)
  | .terminal _ _, .plus _ _ => isFalse (fun h => by cases h)
  | .empty _, .terminal _ _ => isFalse (fun h => by cases h)
  | .empty _, .seq _ _ => isFalse (fun h => by cases h)
  | .empty _, .pipe _ _ => isFalse (fun h => by cases h)
  | .empty _, .star _ _ => isFalse (fun h => by cases h)
  | .empty _, .plus _ _ => isFalse (fun h => by cases h)
  | .seq _ _, .terminal _ _ => isFalse (fun h => by cases h)
  | .seq _ _, .empty _ => isFalse (fun h => by cases h)
  | .seq _ _, .pipe _ _ => isFalse (fun h => by cases h)
  | .seq _ _, .star _ _ => isFalse (fun h => by cases h)
  | .seq _ _, .plus _ _ => isFalse (fun h => by cases h)
  | .pipe _ _, .terminal _ _ => isFalse (fun h => by cases h)
  | .pipe _ _, .empty _ => isFalse (fun h => by cases h)
  | .pipe _ _, .seq _ _ => isFalse (fun h => by cases h)
  | .pipe _ _, .star _ _ => isFalse (fun h => by cases h)
  | .pipe _ _, .plus _ _ => isFalse (fun h => by cases h)
  | .star _ _, .terminal _ _ => isFalse (fun h => by cases h)
  | .star _ _, .empty _ => isFalse (fun h => by cases h)
  | .star _ _, .seq _ _ => isFalse (fun h => by cases h)
  | .star _ _, .pipe _ _ => isFalse (fun h => by cases h)
  | .star _ _, .plus _ _ => isFalse (fun h => by cases h)
  | .plus _ _, .terminal _ _ => isFalse (fun h => by cases h)
  | .plus _ _, .empty _ => isFalse (fun h => by cases h)
  | .plus _ _, .seq _ _ => isFalse (fun h => by cases h)
  | .plus _ _, .pipe _ _ => isFalse (fun h => by cases h)
  | .plus _ _, .star _ _ => isFalse (fun h => by cases h)

/-- Decidable equality of references. -/
def decEqRef : (a b : Ref) → Decidable (a = b)
  | .name s1, .name s2 =>
    if h1 : s1 = s2 then isTrue (by rw [h1])
    else isFalse (fun h => by cases h; exact h1 rfl)
  | .pat p1, .pat p2 =>
    match decEqPat p1 p2 with
    | isTrue h2 => isTrue (by rw [h2])
    | isFalse h2 => isFalse (fun h => by cases h; exact h2 rfl)
  | .name _, .pat _ => isFalse (fun h => by cases h)
  | .pat _, .name _ => isFalse (fun h => by cases h)

/-- Decidable equality of reference lists. -/
def decEqRefList : (a b : List Ref) → Decidable (a = b)
  | [], [] => isTrue rfl
  | [], _ :: _ => isFalse (fun h => by cases h)
  | _ :: _, [] => isFalse (fun h => by cases h)
  | x :: xs, y :: ys =>
    match decEqRef x y with
    | isTrue h1 =>
      match decEqRefList xs ys with
      | isTrue h2 => isTrue (by rw [h1, h2])
      | isFalse h2 => isFalse (fun h => by cases h; exact h2 rfl)
    | isFalse h1 => isFalse (fun h => by cases h; exact h1 rfl)
end

instance : DecidableEq Pat := decEqPat
instance : DecidableEq Ref := decEqRef

/-- Parse-tree values as the source produces them: `(terminal, text)` leaf
pairs, Python `None` from `Empty`, bare child lists from anonymous sequences,
`(name, children)` pairs from named sequences, and `(name, child)` pairs from
named alternations. -/
inductive Tree where
  | leaf : Pat → Str → Tree
  | nil : Tree
  | list : List Tree → Tree
  | node : String → List Tree → Tree
  | tag : String → Tree → Tree

mutual
/-- Decidable equality of parse trees (hand-written for the nested list). -/
def decEqTree : (a b : Tree) → Decidable (a = b)
  | .leaf p1 s1, .leaf p2 s2 =>
    if h1 : p1 = p2 then
      if h2 : s1 = s2 then isTrue (by rw [h1, h2])
      else isFalse (fun h => by cases h; exact h2 rfl)
    else isFalse (fun h => by cases h; exact h1 rfl)
  | .nil, .nil => isTrue rfl
  | .list l1, .list l2 =>
    match decEqTreeList l1 l2 with
    | isTrue h2 => isTrue (by rw [h2])
    | isFalse h2 => isFalse (fun h => by cases h; exact h2 rfl)
  | .node n1 l1, .node n2 l2 =>
    if h1 : n1 = n2 then
      match decEqTreeList l1 l2 with
      | isTrue h2 => isTrue (by rw [h1, h2])
      | isFalse h2 => isFalse (fun h => by cases h; exact h2 rfl)
    else isFalse (fun h => by cases h; exact h1 rfl)
  | .tag n1 t1, .tag n2 t2 =>
    if h1 : n1 = n2 then
      match decEqTree t1 t2 with
      | isTrue h2 => isTrue (by rw [h1, h2])
      | isFalse h2 => isFalse (fun h => by cases h; exact h2 rfl)
    else isFalse (fun h => by cases h; exact h1 rfl)
  | .leaf _ _, .nil => isFalse (fun h => by cases h)
  | .leaf _ _, .list _ => isFalse (fun h => by cases h)
  | .leaf _ _, .node _ _ => isFalse (fun h => by cases h)
  | .leaf _ _, .tag _ _ => isFalse (fun h => by cases h)
  | .nil, .leaf _ _ => isFalse (fun h => by cases h)
  | .nil, .list _ => isFalse (fun h => by cases h)
  | .nil, .node _ _ => isFalse (fun h => by cases h)
  | .nil, .tag _ _ => isFalse (fun h => by cases h)
  | .list _, .leaf _ _ => isFalse (fun h => by cases h)
  | .list _, .nil => isFalse (fun h => by cases h)
  | .list _, .node _ _ => isFalse (fun h => by cases h)
  | .list _, .tag _ _ => isFalse (fun h => by cases h)
  | .node _ _, .leaf _ _ => isFalse (fun h => by cases h)
  | .node _ _, .nil => isFalse (fun h => by cases h)
  | .node _ _, .list _ => isFalse (fun h => by cases h)
  | .node _ _, .tag _ _ => isFalse (fun h => by cases h)
  | .tag _ _, .leaf _ _ => isFalse (fun h => by cases h)
  | .tag _ _, .nil => isFalse (fun h => by cases h)
  | .tag _ _, .list _ => isFalse (fun h => by cases h)
  | .tag _ _, .node _ _ => isFalse (fun h => by cases h)

/-- Decidable equality of tree lists. -/
def decEqTreeList : (a b : List Tree) → Decidable (a = b)
  | [], [] => isTrue rfl
  | [], _ :: _ => isFalse (fun h => by cases h)
  | _ :: _, [] => isFalse (fun h => by cases h)
  | x :: xs, y :: ys =>
    match decEqTree x y with
    | isTrue h1 =>
      match decEqTreeList xs ys with
      | isTrue h2 => isTrue (by rw [h1, h2])
      | isFalse h2 => isFalse (fun h => by cases h; exact h2 rfl)
    | isFalse h1 => isFalse (fun h => by cases h; exact h1 rfl)
end

instance : DecidableEq Tree := decEqTree

/-- Python truthiness of a match result (`if m` in `Seq.fold`): `None` and the
empty list are falsy, every tuple and nonempty list is truthy. -/
def truthy : Tree → Bool
  | .nil => false
  | .list ts => !ts.isEmpty
  | _ => true

/-- The name bound to a pattern (the `name` attribute). -/
def patName : Pat → Option String
  | .terminal nm _ => nm
  | .empty nm => nm
  | .seq nm _ => nm
  | .pipe nm _ => nm
  | .star nm _ => nm
  | .plus nm _ => nm

/-- A `BadState` value: the expected pattern, the input, and the position. -/
structure BadS where
  expected : Pat
  str : Str
  pos : Nat
  deriving DecidableEq

/-- One match candidate: a parse tree together with its end position. -/
abbrev Cand := Tree × Nat

/-- The materialised result of a `matches` enumeration. -/
abbrev MRes := Except BadS (List Cand)

/-- A grammar is the name-to-pattern mapping. -/
abbrev Grammar := List (String × Pat)

/-- Dictionary lookup by rule name. -/
def lookupG : Grammar → String → Option Pat
  | [], _ => none
  | (k, v) :: rest, n => if k = n then some v else lookupG rest n

/-- Resolution of a sub-pattern reference (`Grammar.__getitem__`): a direct
pattern passes through unchanged, a name is looked up. -/
def resolveRef (g : Grammar) : Ref → Option Pat
  | .name n => lookupG g n
  | .pat p => some p

/-- Rebind the name attribute of a pattern (`pattern.name = name`). -/
def setName : Pat → String → Pat
  | .terminal _ pr, n => .terminal (some n) pr
  | .empty _, n => .empty (some n)
  | .seq _ subs, n => .seq (some n) subs
  | .pipe _ subs, n => .pipe (some n) subs
  | .star _ subs, n => .star (some n) subs
  | .plus _ subs, n => .plus (some n) subs

/-- Grammar construction (`Grammar.__init__`): every registered pattern gets
the name it is registered under bound to it. -/
def mkGrammar (l : List (String × Pat)) : Grammar :=
  l.map (fun e => (e.1, setName e.2 e.1))

/-- The implicit padding in `State.__new__`: a pattern constructed with no
sub-patterns holds a single anonymous `Empty`. -/
def pad (l : List Ref) : List Ref :=
  if l.isEmpty then [Ref.pat (Pat.empty none)] else l

/-- The fold of a sequence's accumulated children (`Seq.fold`): falsy entries
are dropped, and the result is tagged when the sequence is named. -/
def foldSeq (nm : Option String) (children : List Tree) : Tree :=
  match nm with
  | some n => .node n (children.filter truthy)
  | none => .list (children.filter truthy)

/-- The fold of an alternation's candidate (`Pipe.fold`): tag with the
alternation's name when present, else pass the sub-result through. -/
def foldPipe (nm : Option String) (t : Tree) : Tree :=
  match nm with
  | some n => .tag n t
  | none => t

/-- The alternative producer behind `Pipe.matches` (`iter(self)` and its
`send` protocol).  A plain `Pipe` enumerates its fixed element list ignoring
the feedback; `Star`/`Plus` hold the current repetition pattern's elements and
grow them by one copy of the repeated elements on success feedback, stopping
on failure feedback. -/
inductive AltProd where
  | fixed : List Ref → AltProd
  | grow : List Ref → List Ref → AltProd

/-- Advance the producer given the feedback for the previous alternative. -/
def prodNext : AltProd → Bool → Option (Ref × AltProd)
  | .fixed [], _ => none
  | .fixed (r :: rs), _ => some (r, .fixed rs)
  | .grow cur step, true =>
      some (.pat (.seq none (cur ++ step)), .grow (cur ++ step) step)
  | .grow _ _, false => none

/-- A matcher abstracts `pattern.matches(grammar, string, start)` with the
grammar and input fixed: it takes the pattern and the start position. -/
abbrev Matcher := Pat → Nat → Option MRes

/-- One step of `Seq.matches`: extend every working pair `(children, pos)` by
every candidate of the current sub-pattern matched at `pos`.  Returns the new
working list together with the last `BadState` recorded at this step (the tail
of `errlist` contributed here), if any. -/
def seqStep (g : Grammar) (m : Matcher) (r : Ref) :
    List (List Tree × Nat) → Option (List (List Tree × Nat) × Option BadS)
  | [] => some ([], none)
  | (w, pos) :: rest =>
    match resolveRef g r with
    | none => none
    | some q =>
      match m q pos with
      | none => none
      | some (.error e) =>
        match seqStep g m r rest with
        | none => none
        | some (ms, err) => some (ms, some (err.getD e))
      | some (.ok l) =>
        match seqStep g m r rest with
        | none => none
        | some (ms, err) =>
          some (l.map (fun c => (w ++ [c.1], c.2)) ++ ms, err)

/-- The main loop of `Seq.matches` over the sub-patterns, carrying the working
list and the most recently recorded error (`errlist[-1]`).  Returns the
surviving working list (still un-folded) and the final last error. -/
def seqRun (g : Grammar) (m : Matcher) :
    List Ref → List (List Tree × Nat) → BadS →
    Option (Except BadS (List (List Tree × Nat) × BadS))
  | [], macc, le => some (.ok (macc, le))
  | r :: rs, macc, le =>
    match seqStep g m r macc with
    | none => none
    | some (ms, err) =>
      let le' := err.getD le
      if ms.isEmpty then some (.error le')
      else seqRun g m rs ms le'

/-- `Seq.matches`: run the sub-patterns over the working list seeded with one
empty entry at `start`, then yield the fold of every surviving entry. -/
def seqMatches (g : Grammar) (m : Matcher) (self : Pat) (subs : List Ref)
    (s : Str) (start : Nat) : Option MRes :=
  match seqRun g m (pad subs) [([], start)] ⟨self, s, start⟩ with
  | none => none
  | some (.error e) => some (.error e)
  | some (.ok (macc, _)) =>
      some (.ok (macc.map (fun w => (foldSeq (patName self) w.1, w.2))))

/-- The loop of `Pipe.matches`: try the current alternative at `start`, yield
its folded candidates on success, feed the outcome back to the producer, and
continue until the producer stops; fail with `BadState` only if no offered
alternative ever matched.  The extra `Nat` bounds the number of alternatives
the loop may consume (the source's loop is unbounded). -/
def pipeLoop (g : Grammar) (m : Matcher) (self : Pat) (s : Str) (start : Nat) :
    Nat → Ref → AltProd → Bool → List Cand → Option MRes
  | 0, _, _, _, _ => none
  | lf + 1, r, prod, anyM, acc =>
    match resolveRef g r with
    | none => none
    | some q =>
      match m q start with
      | none => none
      | some res =>
        let succ : Bool := match res with | .ok _ => true | .error _ => false
        let acc' : List Cand :=
          match res with
          | .ok l => acc ++ l.map (fun c => (foldPipe (patName self) c.1, c.2))
          | .error _ => acc
        match prodNext prod succ with
        | some (r', prod') => pipeLoop g m self s start lf r' prod' (anyM || succ) acc'
        | none =>
          if anyM || succ then some (.ok acc')
          else some (.error ⟨self, s, start⟩)

/-- The match engine, `matches(grammar, string, start)`, dispatched over the
pattern variants, with fuel bounding the recursion depth and the number of
alternatives a repetition may offer. -/
def matchesF : Nat → Grammar → Pat → Str → Nat → Option MRes
  | 0, _, _, _, _ => none
  | f + 1, g, p, s, start =>
    match p with
    | .terminal _ pr =>
      match primExec pr (s.drop start) with
      | none => some (.error ⟨p, s, start⟩)
      | some k => some (.ok [(.leaf p ((s.drop start).take k), start + k)])
    | .empty _ => some (.ok [(.nil, start)])
    | .seq _ subs =>
      seqMatches g (fun q pos => matchesF f g q s pos) p subs s start
    | .pipe _ subs =>
      match pad subs with
      | r :: rs =>
        pipeLoop g (fun q pos => matchesF f g q s pos) p s start f r (.fixed rs) false []
      | [] => some (.error ⟨p, s, start⟩)
    | .star _ subs =>
      pipeLoop g (fun q pos => matchesF f g q s pos) p s start f
        (.pat (.seq none [.pat (.empty none)]))
        (.grow [.pat (.empty none)] (pad subs)) false []
    | .plus _ subs =>
      pipeLoop g (fun q pos => matchesF f g q s pos) p s start f
        (.pat (.seq none (pad subs)))
        (.grow (pad subs) (pad subs)) false []

/-- Errors surfacing from `Grammar.parse`: a propagated or freshly raised
`BadState`, or `BadGrammar` carrying the ambiguous candidate list. -/
inductive PErr where
  | badState : BadS → PErr
  | badGrammar : List Cand → PErr
  deriving DecidableEq

/-- `Grammar.parse`: resolve the rule, materialise its matches, fail with
`BadGrammar` on more than one candidate and `BadState` at position 0 on an
empty candidate list, else return the single candidate's tree (its end
position is ignored: no end-of-input anchoring). -/
def parseF (f : Nat) (g : Grammar) (name : String) (s : Str) :
    Option (Except PErr Tree) :=
  match lookupG g name with
  | none => none
  | some p =>
    match matchesF f g p s 0 with
    | none => none
    | some (.error e) => some (.error (.badState e))
    | some (.ok ms) =>
      if 1 < ms.length then some (.error (.badGrammar ms))
      else
        match ms with
        | [] => some (.error (.badState ⟨p, s, 0⟩))
        | (t, _) :: _ => some (.ok t)

/-- The value `is_valid` evaluates to: `parse(...) and True` yields `True` on
a truthy tree but the tree itself when it is falsy; a caught `BadState` yields
`False`. -/
inductive PyBool where
  | pyTrue : PyBool
  | pyFalse : PyBool
  | treeVal : Tree → PyBool
  deriving DecidableEq

/-- `Grammar.is_valid`: return `parse(...) and True`, turning a raised
`BadState` into `False`; `BadGrammar` (and `KeyError`) propagate. -/
def isValidF (f : Nat) (g : Grammar) (name : String) (s : Str) :
    Option (Except PErr PyBool) :=
  match parseF f g name s with
  | none => none
  | some (.ok t) => some (.ok (if truthy t then .pyTrue else .treeVal t))
  | some (.error (.badState _)) => some (.ok .pyFalse)
  | some (.error e) => some (.error e)

/-- The slice `s[a:b]` of the input (Python slicing clamps out-of-range
bounds). -/
def sliceS (s : Str) (a b : Nat) : Str := (s.drop a).take (b - a)

mutual
/-- The concatenation, in tree order, of every terminal leaf's matched
text. -/
def leafText : Tree → Str
  | .leaf _ txt => txt
  | .nil => []
  | .list ts => leafTextList ts
  | .node _ ts => leafTextList ts
  | .tag _ t => leafText t

/-- Leaf text of a list of trees, concatenated in order. -/
def leafTextList : List Tree → Str
  | [] => []
  | t :: ts => leafText t ++ leafTextList ts
end

/-- The elements of the i-th alternative a `Star`/`Plus` producer offers: the
initial elements extended by `i` copies of the repeated elements. -/
def chainElems (a0 step : List Ref) : Nat → List Ref
  | 0 => a0
  | i + 1 => chainElems a0 step i ++ step

/-- The outcomes of matching each listed alternative of a finite alternation
at `start`, defined when every alternative resolves and has a result. -/
def altResults (g : Grammar) (m : Matcher) (start : Nat) :
    List Ref → Option (List MRes)
  | [] => some []
  | r :: rs =>
    match resolveRef g r with
    | none => none
    | some q =>
      match m q start with
      | none => none
      | some res => (altResults g m start rs).map (fun l => res :: l)

/-- Does the union of the listed alternatives' outcomes contain a success? -/
def anyOk (rs : List MRes) : Bool := rs.any (fun r => match r with | .ok _ => true | .error _ => false)

/-- The candidates a finite alternation yields: every successful
alternative's candidates, in listed order, folded with the alternation's
name. -/
def unionCands (nm : Option String) (rs : List MRes) : List Cand :=
  rs.flatMap (fun r =>
    match r with
    | .ok l => l.map (fun c => (foldPipe nm c.1, c.2))
    | .error _ => [])

/-- Soundness of one candidate produced at `start`: its leaf text is exactly
the consumed slice, and the end position never runs before the start nor past
the input (it can exceed the length only by staying at an out-of-range
start). -/
abbrev CandSound (s : Str) (start : Nat) (c : Cand) : Prop :=
  leafText c.1 = sliceS s start c.2 ∧ start ≤ c.2 ∧ c.2 ≤ max start s.length

/-- Soundness of a matcher: every candidate it yields is sound for its start
position. -/
abbrev MatcherSound (s : Str) (m : Matcher) : Prop :=
  ∀ q pos res, m q pos = some (.ok res) → ∀ c ∈ res, CandSound s pos c

/-- Soundness of a working-list pair of `Seq.matches`: the accumulated
children's leaf text is the slice consumed so far. -/
abbrev PairSound (s : Str) (start : Nat) (wp : List Tree × Nat) : Prop :=
  leafTextList wp.1 = sliceS s start wp.2 ∧ start ≤ wp.2 ∧ wp.2 ≤ max start s.length

/-- One matcher refines another when every result it assigns is preserved. -/
abbrev MatcherLE (m m' : Matcher) : Prop :=
  ∀ q pos r, m q pos = some r → m' q pos = some r

/-- The `BadState` errors recorded while extending the pairs of a working
list with one sub-pattern, in the order `Seq.matches` appends them to
`errlist` at that step. -/
def stepErrors (g : Grammar) (m : Matcher) (r : Ref)
    (macc : List (List Tree × Nat)) : List BadS :=
  macc.filterMap (fun wp =>
    match resolveRef g r with
    | none => none
    | some q =>
      match m q wp.2 with
      | some (.error e) => some e
      | _ => none)

/-- Grammar of the C1 counterexample: a rule with the same alternative listed
twice, producing two identical top-level candidates. -/
def g1 : Grammar :=
  mkGrammar [("r", .pipe none [.name "a", .name "a"]),
             ("a", .terminal none (.lit ['x']))]

/-- The single distinct candidate tree `g1` produces on input `x`. -/
def c1Tree : Tree := .tag "r" (.leaf (.terminal (some "a") (.lit ['x'])) ['x'])

/-- The full (duplicated) candidate list `g1` produces on input `x`. -/
def c1ms : List Cand := [(c1Tree, 1), (c1Tree, 1)]

/-- Grammar of the C2 counterexample: a sequence whose second element fails
one character into the input. -/
def g2 : Grammar :=
  mkGrammar [("r", .seq none [.name "a", .name "b"]),
             ("a", .terminal none (.lit ['x'])),
             ("b", .terminal none (.lit ['y']))]

/-- The registered pattern of rule `b` in `g2`. -/
def g2b : Pat := .terminal (some "b") (.lit ['y'])

/-- The registered pattern of rule `r` in `g2`. -/
def g2r : Pat := .seq (some "r") [.name "a", .name "b"]

/-- Single-terminal grammar used to exhibit the absence of end-of-input
anchoring. -/
def gA : Grammar := mkGrammar [("t", .terminal none (.lit ['a']))]

/-- Grammar registering a bare `Empty` rule (the C3 failing input). -/
def g3 : Grammar := mkGrammar [("e", .empty none)]

/-- Grammar whose only rule matches `y`, so it cannot match on input `x`. -/
def g5 : Grammar := mkGrammar [("p", .terminal none (.lit ['y']))]

/-- The resolved pattern of rule `p` in `g5`. -/
def g5p : Pat := .terminal (some "p") (.lit ['y'])

/-- The C7 counterexample sequence: the first element yields candidates at
end positions 2 then 1 (in that order), the second element fails at both. -/
def c7seq : Pat :=
  .seq none [.pat (.pipe none [.pat (.terminal none (.lit ['a', 'b'])),
                               .pat (.terminal none (.lit ['a']))]),
             .pat (.terminal none (.lit ['z']))]

/-- The failing second element of the C7 counterexample sequence. -/
def c7b : Pat := .terminal none (.lit ['z'])

/-- Finite-alternation grammar for the C8 witness: on input `xy`, the first
alternative matches one character, the second fails, the third matches both
characters — all three are tried. -/
def g8 : Grammar :=
  mkGrammar [("r", .pipe none [.name "a", .name "b", .name "c"]),
             ("a", .terminal none (.lit ['x'])),
             ("b", .terminal none (.lit ['z'])),
             ("c", .terminal none (.lit ['x', 'y']))]

/-- Grammar for the C10 witness: an anonymous `Star` that matches zero-width
between two terminals. -/
def g10 : Grammar :=
  mkGrammar [("r", .seq none [.name "a", .pat (.star none [.name "b"]), .name "a"]),
             ("a", .terminal none (.lit ['x'])),
             ("b", .terminal none (.lit ['y']))]

/-- The leaf of rule `a` of `g10` on one character `x`. -/
def c10Leaf : Tree := .leaf (.terminal (some "a") (.lit ['x'])) ['x']

/-- Padded-terminal grammar for the C4 witness: the padding whitespace is
part of the consumed slice and of the leaf text. -/
def g4 : Grammar := mkGrammar [("op", .terminal none (.padded (.lit ['+'])))]

/-- The resolved pattern of rule `op` in `g4`. -/
def g4op : Pat := .terminal (some "op") (.padded (.lit ['+']))

/-!
Definitional unfolding equations of the engine, used to compute with
symbolic fuel. -/

theorem matchesF_empty (f : Nat) (g : Grammar) (nm : Option String) (s : Str) (start : Nat) :
    matchesF (f + 1) g (.empty nm) s start = some (.ok [(.nil, start)]) := rfl

theorem matchesF_seq (f : Nat) (g : Grammar) (nm : Option String) (subs : List Ref)
    (s : Str) (start : Nat) :
    matchesF (f + 1) g (.seq nm subs) s start
      = seqMatches g (fun q pos => matchesF f g q s pos) (.seq nm subs) subs s start := rfl

theorem matchesF_star (f : Nat) (g : Grammar) (nm : Option String) (subs : List Ref)
    (s : Str) (start : Nat) :
    matchesF (f + 1) g (.star nm subs) s start
      = pipeLoop g (fun q pos => matchesF f g q s pos) (.star nm subs) s start f
          (.pat (.seq none [.pat (.empty none)]))
          (.grow [.pat (.empty none)] (pad subs)) false [] := rfl

theorem matchesF_plus (f : Nat) (g : Grammar) (nm : Option String) (subs : List Ref)
    (s : Str) (start : Nat) :
    matchesF (f + 1) g (.plus nm subs) s start
      = pipeLoop g (fun q pos => matchesF f g q s pos) (.plus nm subs) s start f
          (.pat (.seq none (pad subs)))
          (.grow (pad subs) (pad subs)) false [] := rfl

theorem matchesF_pipe_cons (f : Nat) (g : Grammar) (nm : Option String) (subs : List Ref)
    (r : Ref) (rs : List Ref) (s : Str) (start : Nat) (h : pad subs = r :: rs) :
    matchesF (f + 1) g (.pipe nm subs) s start
      = pipeLoop g (fun q pos => matchesF f g q s pos) (.pipe nm subs) s start f
          r (.fixed rs) false [] := by
  simp only [matchesF, h]

theorem altResults_cons (g : Grammar) (m : Matcher) (start : Nat) (r : Ref)
    (rest : List Ref) :
    altResults g m start (r :: rest)
      = match resolveRef g r with
        | none => none
        | some q =>
          match m q start with
          | none => none
          | some res => (altResults g m start rest).map (fun l => res :: l) := rfl

theorem seqStep_nil (g : Grammar) (m : Matcher) (r : Ref) :
    seqStep g m r [] = some ([], none) := rfl

theorem seqStep_cons_err (g : Grammar) (m : Matcher) (r : Ref) (q : Pat)
    (w : List Tree) (pos : Nat) (rest : List (List Tree × Nat)) (e : BadS)
    (hr : resolveRef g r = some q) (hm : m q pos = some (.error e)) :
    seqStep g m r ((w, pos) :: rest)
      = match seqStep g m r rest with
        | none => none
        | some (ms, err) => some (ms, some (err.getD e)) := by
  simp only [seqStep, hr, hm]

theorem seqStep_cons_ok (g : Grammar) (m : Matcher) (r : Ref) (q : Pat)
    (w : List Tree) (pos : Nat) (rest : List (List Tree × Nat)) (l : List Cand)
    (hr : resolveRef g r = some q) (hm : m q pos = some (.ok l)) :
    seqStep g m r ((w, pos) :: rest)
      = match seqStep g m r rest with
        | none => none
        | some (ms, err) => some (l.map (fun c => (w ++ [c.1], c.2)) ++ ms, err) := by
  simp only [seqStep, hr, hm]

theorem seqRun_nil (g : Grammar) (m : Matcher) (macc : List (List Tree × Nat)) (le : BadS) :
    seqRun g m [] macc le = some (.ok (macc, le)) := rfl

theorem seqRun_cons (g : Grammar) (m : Matcher) (r : Ref) (rs : List Ref)
    (macc : List (List Tree × Nat)) (le : BadS) :
    seqRun g m (r :: rs) macc le
      = match seqStep g m r macc with
        | none => none
        | some (ms, err) =>
          if ms.isEmpty then some (.error (err.getD le))
          else seqRun g m rs ms (err.getD le) := rfl

theorem pipeLoop_succ_ok (g : Grammar) (m : Matcher) (self : Pat) (s : Str)
    (start lf : Nat) (r : Ref) (q : Pat) (prod : AltProd) (anyM : Bool)
    (acc l : List Cand)
    (hr : resolveRef g r = some q) (hm : m q start = some (.ok l)) :
    pipeLoop g m self s start (lf + 1) r prod anyM acc
      = match prodNext prod true with
        | some (r', prod') =>
          pipeLoop g m self s start lf r' prod' true
            (acc ++ l.map (fun c => (foldPipe (patName self) c.1, c.2)))
        | none => some (.ok (acc ++ l.map (fun c => (foldPipe (patName self) c.1, c.2)))) := by
  simp only [pipeLoop, hr, hm, Bool.or_true, if_true]

theorem pipeLoop_succ_err (g : Grammar) (m : Matcher) (self : Pat) (s : Str)
    (start lf : Nat) (r : Ref) (q : Pat) (prod : AltProd) (anyM : Bool)
    (acc : List Cand) (e : BadS)
    (hr : resolveRef g r = some q) (hm : m q start = some (.error e)) :
    pipeLoop g m self s start (lf + 1) r prod anyM acc
      = match prodNext prod false with
        | some (r', prod') => pipeLoop g m self s start lf r' prod' anyM acc
        | none => if anyM then some (.ok acc) else some (.error ⟨self, s, start⟩) := by
  simp only [pipeLoop, hr, hm, Bool.or_false]

/-- Setting a name makes it the pattern's bound name. -/
theorem patName_setName (p : Pat) (n : String) : patName (setName p n) = some n := by
  cases p <;> rfl

/-- Filtering by truthiness leaves only truthy entries. -/
theorem all_truthy_filter (l : List Tree) : (l.filter truthy).all truthy = true := by
  simp only [List.all_eq_true]
  intro x hx
  exact (List.mem_filter.mp hx).2

/-- The last element of a nonempty list, as an option, via a default. -/
theorem getLast?_cons_getD {α : Type} (l : List α) :
    ∀ (a : α), (a :: l).getLast? = some (l.getLast?.getD a) := by
  induction l with
  | nil => intro a; rfl
  | cons b t ih =>
    intro a
    rw [List.getLast?_cons_cons, ih b]
    simp

/-- The last error `seqStep` reports is the last-recorded one: the error of
the last pair of the working list whose continuation failed. -/
theorem seqStep_lastError (g : Grammar) (m : Matcher) (r : Ref) :
    ∀ (macc : List (List Tree × Nat)) (ms : List (List Tree × Nat)) (err : Option BadS),
    seqStep g m r macc = some (ms, err) →
    err = (stepErrors g m r macc).getLast? := by
  intro macc
  induction macc with
  | nil =>
    intro ms err h
    simp only [seqStep_nil, Option.some_inj] at h
    cases h
    simp [stepErrors]
  | cons wp rest ih =>
    intro ms err h
    obtain ⟨w, pos⟩ := wp
    cases hr : resolveRef g r with
    | none => simp [seqStep, hr] at h
    | some q =>
      cases hq : m q pos with
      | none => simp [seqStep, hr, hq] at h
      | some res =>
        cases res with
        | error e =>
          cases hrest : seqStep g m r rest with
          | none => simp [seqStep, hr, hq, hrest] at h
          | some pr =>
            obtain ⟨ms0, err0⟩ := pr
            simp only [seqStep, hr, hq, hrest, Option.some_inj, Prod.mk.injEq] at h
            obtain ⟨hms, herr⟩ := h
            have he0 := ih ms0 err0 hrest
            have hse : stepErrors g m r ((w, pos) :: rest)
                = e :: stepErrors g m r rest := by
              simp [stepErrors, hr, hq]
            rw [← herr, hse, getLast?_cons_getD, ← he0]
        | ok l =>
          cases hrest : seqStep g m r rest with
          | none => simp [seqStep, hr, hq, hrest] at h
          | some pr =>
            obtain ⟨ms0, err0⟩ := pr
            simp only [seqStep, hr, hq, hrest, Option.some_inj, Prod.mk.injEq] at h
            obtain ⟨hms, herr⟩ := h
            have he0 := ih ms0 err0 hrest
            have hse : stepErrors g m r ((w, pos) :: rest)
                = stepErrors g m r rest := by
              simp [stepErrors, hr, hq]
            rw [← herr, hse]
            exact he0

/-- Running the alternation loop over a fixed list of alternatives collects
every successful alternative's folded candidates and fails only when no
alternative matched. -/
theorem pipeLoop_fixed (g : Grammar) (m : Matcher) (self : Pat) (s : Str) (start : Nat) :
    ∀ (alts : List Ref) (r : Ref) (rs : List MRes) (acc : List Cand) (anyM : Bool) (lf : Nat),
    altResults g m start (r :: alts) = some rs →
    alts.length ≤ lf →
    pipeLoop g m self s start (lf + 1) r (.fixed alts) anyM acc
      = some (if anyM || anyOk rs then .ok (acc ++ unionCands (patName self) rs)
              else .error ⟨self, s, start⟩) := by
  intro alts
  induction alts with
  | nil =>
    intro r rs acc anyM lf hres hlen
    cases hr : resolveRef g r with
    | none => simp [altResults, hr] at hres
    | some q =>
      cases hq : m q start with
      | none => simp [altResults, hr, hq] at hres
      | some res =>
        have hrs : rs = [res] := by
          simp [altResults, hr, hq] at hres
          exact hres.symm
        subst hrs
        cases res with
        | ok l =>
          rw [pipeLoop_succ_ok g m self s start lf r q (.fixed []) anyM acc l hr hq]
          simp [prodNext, anyOk, unionCands]
        | error e =>
          rw [pipeLoop_succ_err g m self s start lf r q (.fixed []) anyM acc e hr hq]
          simp only [prodNext, anyOk, unionCands, List.any_cons, List.any_nil,
            List.flatMap_cons, List.flatMap_nil, List.append_nil, Bool.or_false]
          cases anyM <;> simp
  | cons a alts ih =>
    intro r rs acc anyM lf hres hlen
    cases hr : resolveRef g r with
    | none => simp [altResults, hr] at hres
    | some q =>
      cases hq : m q start with
      | none => simp [altResults, hr, hq] at hres
      | some res =>
        cases hrest : altResults g m start (a :: alts) with
        | none =>
          rw [altResults_cons] at hres
          simp only [hr, hq, hrest, Option.map_none'] at hres
          exact absurd hres (by simp)
        | some rs' =>
          have hrs : rs = res :: rs' := by
            rw [altResults_cons] at hres
            simp only [hr, hq, hrest, Option.map_some', Option.some_inj] at hres
            exact hres.symm
          subst hrs
          obtain ⟨lf', rfl⟩ : ∃ l, lf = l + 1 :=
            ⟨lf - 1, by simp only [List.length_cons] at hlen; omega⟩
          have hlen' : alts.length ≤ lf' := by
            simp only [List.length_cons] at hlen; omega
          cases res with
          | ok l =>
            rw [pipeLoop_succ_ok g m self s start (lf' + 1) r q (.fixed (a :: alts)) anyM acc l hr hq]
            simp only [prodNext]
            rw [ih a rs' (acc ++ l.map (fun c => (foldPipe (patName self) c.1, c.2))) true lf' hrest hlen']
            simp [anyOk, unionCands, List.append_assoc]
          | error e =>
            rw [pipeLoop_succ_err g m self s start (lf' + 1) r q (.fixed (a :: alts)) anyM acc e hr hq]
            simp only [prodNext]
            rw [ih a rs' acc anyM lf' hrest hlen']
            simp [anyOk, unionCands]

/-- Claim C1 (amended): `parse` raises `BadGrammar`, carrying the materialised
candidate list, exactly when that list has more than one element — candidates
are counted with multiplicity, without deduplication, and sub-pattern
ambiguity that leaves at most one top-level candidate raises nothing. -/
theorem c1_badGrammar_multiplicity (f : Nat) (g : Grammar) (n : String) (s : Str)
    (p : Pat) (ms : List Cand)
    (hl : lookupG g n = some p) (hm : matchesF f g p s 0 = some (.ok ms)) :
    parseF f g n s = some (.error (.badGrammar ms)) ↔ 1 < ms.length := by
  simp only [parseF, hl, hm]
  constructor
  · intro h
    by_contra hlen
    rw [if_neg hlen] at h
    match ms, h with
    | [], h => simp at h
    | [(t, pos)], h => simp at h
  · intro h
    rw [if_pos h]

/-- Claim C1 counterexample: a rule listing the same alternative twice yields
two equal candidates; `parse` raises `BadGrammar` although only one distinct
full match exists. -/
theorem c1_counterexample :
    parseF 9 g1 "r" ['x'] = some (.error (.badGrammar c1ms)) ∧
    c1ms.length = 2 ∧ c1ms.dedup = [(c1Tree, 1)] := by
  refine ⟨?_, by decide, by decide⟩
  decide

/-- Claim C1 witness: the amended theorem evaluated on `g1`. -/
theorem c1_badGrammar_multiplicity_witness :
    parseF 9 g1 "r" ['x'] = some (.error (.badGrammar c1ms)) :=
  (c1_badGrammar_multiplicity 9 g1 "r" ['x']
      (.pipe (some "r") [.name "a", .name "a"]) c1ms
      (by decide) (by decide)).mpr (by decide)

/-- Claim C2 (amended): when the enumeration raises `BadState` (producing no
candidates), `parse` propagates exactly that error — which may carry a failing
sub-pattern at a nonzero position; when the enumeration yields exactly one
candidate, `parse` returns its tree whatever its end position is. -/
theorem c2_parse_outcomes (f : Nat) (g : Grammar) (n : String) (s : Str) (p : Pat)
    (hl : lookupG g n = some p) :
    (∀ e, matchesF f g p s 0 = some (.error e) →
        parseF f g n s = some (.error (.badState e))) ∧
    (∀ t pos, matchesF f g p s 0 = some (.ok [(t, pos)]) →
        parseF f g n s = some (.ok t)) := by
  constructor
  · intro e hm
    simp only [parseF, hl, hm]
  · intro t pos hm
    simp only [parseF, hl, hm, List.length_cons, List.length_nil]
    norm_num

/-- Claim C2 counterexample: `g2`'s rule `r` produces no candidate on `xz`,
yet `parse` raises the propagated `BadState` of sub-rule `b` at position 1 —
not a `BadState` carrying the resolved rule at position 0. -/
theorem c2_counterexample :
    matchesF 9 g2 g2r ['x', 'z'] 0 = some (.error ⟨g2b, ['x', 'z'], 1⟩) ∧
    parseF 9 g2 "r" ['x', 'z'] = some (.error (.badState ⟨g2b, ['x', 'z'], 1⟩)) ∧
    (⟨g2b, ['x', 'z'], 1⟩ : BadS) ≠ ⟨g2r, ['x', 'z'], 0⟩ := by
  refine ⟨?_, ?_, by decide⟩ <;> decide

/-- Claim C2 witness: the amended theorem evaluated on the propagated-error
case and on a single-candidate parse whose end position 1 is short of the
input length 2 (no anchoring). -/
theorem c2_parse_outcomes_witness :
    parseF 9 g2 "r" ['x', 'z'] = some (.error (.badState ⟨g2b, ['x', 'z'], 1⟩)) ∧
    parseF 5 gA "t" ['a', 'b'] = some (.ok (.leaf (.terminal (some "t") (.lit ['a'])) ['a'])) ∧
    (1 : Nat) ≠ (['a', 'b'] : Str).length :=
  ⟨(c2_parse_outcomes 9 g2 "r" ['x', 'z'] g2r (by decide)).1 _ (by decide),
   (c2_parse_outcomes 5 gA "t" ['a', 'b'] (.terminal (some "t") (.lit ['a']))
      (by decide)).2 _ 1 (by decide),
   by decide⟩

/-- Claim C3 (code bug evidence): on the grammar registering an `Empty` rule,
`parse` succeeds with the falsy tree `None`, yet `is_valid` returns that tree
itself (the value of `None and True`), which is neither `True` nor `False` —
contradicting the documented boolean contract. -/
theorem c3_is_valid_on_empty_tree :
    parseF 5 g3 "e" [] = some (.ok .nil) ∧
    isValidF 5 g3 "e" [] = some (.ok (.treeVal .nil)) ∧
    PyBool.treeVal .nil ≠ PyBool.pyTrue := by
  refine ⟨?_, ?_, by decide⟩ <;> decide

/-- Claim C5: where the repeated pattern cannot match, `Star` yields exactly
one zero-width candidate at the start position and never raises, while `Plus`
raises `BadState` carrying itself at that position. -/
theorem c5_repetition (f : Nat) (g : Grammar) (r : Ref) (q : Pat)
    (nmS nmP : Option String) (s : Str) (start : Nat) (e : BadS)
    (hr : resolveRef g r = some q)
    (hm : matchesF f g q s start = some (.error e)) :
    matchesF (f + 2) g (.star nmS [r]) s start
      = some (.ok [(foldPipe nmS (.list []), start)]) ∧
    matchesF (f + 2) g (.plus nmP [r]) s start
      = some (.error ⟨.plus nmP [r], s, start⟩) := by
  obtain ⟨k, rfl⟩ : ∃ k, f = k + 1 := by
    cases f with
    | zero => exact absurd hm (by simp [matchesF])
    | succ k => exact ⟨k, rfl⟩
  have hA0 : matchesF (k + 2) g (.seq none [.pat (.empty none)]) s start
      = some (.ok [(.list [], start)]) := rfl
  have hA1 : matchesF (k + 2) g (.seq none [.pat (.empty none), r]) s start
      = some (.error e) := by
    rw [matchesF_seq]
    simp only [seqMatches, pad, List.isEmpty_cons, Bool.false_eq_true, if_false]
    rw [seqRun_cons,
        seqStep_cons_ok g _ (.pat (.empty none)) (.empty none) [] start [] [(.nil, start)] rfl
          (matchesF_empty (k + 1) g none s start),
        seqStep_nil]
    simp only [List.map, List.nil_append, List.append_nil, List.isEmpty_cons,
      Bool.false_eq_true, if_false]
    rw [seqRun_cons, seqStep_cons_err g _ r q [Tree.nil] start [] e hr hm, seqStep_nil]
    rfl
  have hA1' : matchesF (k + 2) g (.seq none [r]) s start = some (.error e) := by
    rw [matchesF_seq]
    simp only [seqMatches, pad, List.isEmpty_cons, Bool.false_eq_true, if_false]
    rw [seqRun_cons, seqStep_cons_err g _ r q [] start [] e hr hm, seqStep_nil]
    rfl
  constructor
  · rw [matchesF_star]
    simp only [pad, List.isEmpty_cons, Bool.false_eq_true, if_false]
    rw [pipeLoop_succ_ok g _ _ s start (k + 1) (.pat (.seq none [.pat (.empty none)]))
         (.seq none [.pat (.empty none)]) _ false [] _ rfl hA0]
    simp only [prodNext, List.cons_append, List.nil_append]
    rw [pipeLoop_succ_err g _ _ s start k (.pat (.seq none [.pat (.empty none), r]))
         (.seq none [.pat (.empty none), r]) _ true _ e rfl hA1]
    rfl
  · rw [matchesF_plus]
    simp only [pad, List.isEmpty_cons, Bool.false_eq_true, if_false]
    rw [pipeLoop_succ_err g _ _ s start (k + 1) (.pat (.seq none [r]))
         (.seq none [r]) _ false [] e rfl hA1']
    rfl

/-- Claim C5 witness: on input `x` with repeated rule matching only `y`,
`Star` yields the zero-width candidate and `Plus` raises. -/
theorem c5_repetition_witness :
    matchesF 3 g5 (.star none [.name "p"]) ['x'] 0 = some (.ok [(.list [], 0)]) ∧
    matchesF 3 g5 (.plus none [.name "p"]) ['x'] 0
      = some (.error ⟨.plus none [.name "p"], ['x'], 0⟩) :=
  c5_repetition 1 g5 (.name "p") g5p none none ['x'] 0 ⟨g5p, ['x'], 0⟩
    (by decide) (by decide)

/-- Claim C7 (amended): when the working list empties at a sub-pattern step,
`Seq.matches` raises the most recently recorded `BadState` — the error of the
last continuation attempted at that step (falling back to the carried last
error), not necessarily the deepest one collected. -/
theorem c7_last_recorded_error (g : Grammar) (m : Matcher) (r : Ref) (rs : List Ref)
    (macc : List (List Tree × Nat)) (le : BadS) (err : Option BadS)
    (hstep : seqStep g m r macc = some ([], err)) :
    seqRun g m (r :: rs) macc le
      = some (.error (((stepErrors g m r macc).getLast?).getD le)) ∧
    err = (stepErrors g m r macc).getLast? := by
  have herr := seqStep_lastError g m r macc [] err hstep
  constructor
  · rw [seqRun_cons, hstep]
    simp [herr]
  · exact herr

/-- Claim C7 counterexample: in `c7seq` over `ab`, the first element yields
candidates ending at 2 then 1 (in that order); the second element fails at
both, recording errors at positions 2 then 1, and the sequence raises the
last-recorded error at position 1 even though the deeper error at position 2
was collected. -/
theorem c7_counterexample :
    matchesF 9 [] (.pipe none [.pat (.terminal none (.lit ['a', 'b'])),
                               .pat (.terminal none (.lit ['a']))]) ['a', 'b'] 0
      = some (.ok [(.leaf (.terminal none (.lit ['a', 'b'])) ['a', 'b'], 2),
                   (.leaf (.terminal none (.lit ['a'])) ['a'], 1)]) ∧
    matchesF 9 [] c7b ['a', 'b'] 2 = some (.error ⟨c7b, ['a', 'b'], 2⟩) ∧
    matchesF 9 [] c7seq ['a', 'b'] 0 = some (.error ⟨c7b, ['a', 'b'], 1⟩) ∧
    (⟨c7b, ['a', 'b'], 1⟩ : BadS) ≠ ⟨c7b, ['a', 'b'], 2⟩ := by
  refine ⟨?_, ?_, ?_, by decide⟩ <;> decide

/-- Claim C7 witness: the amended theorem evaluated at the failing step of
the counterexample sequence — the raised error is the last-recorded one, at
position 1. -/
theorem c7_last_recorded_error_witness :
    seqRun [] (fun q pos => matchesF 7 [] q ['a', 'b'] pos) [.pat c7b]
        [([.leaf (.terminal none (.lit ['a', 'b'])) ['a', 'b']], 2),
         ([.leaf (.terminal none (.lit ['a'])) ['a']], 1)] ⟨c7seq, ['a', 'b'], 0⟩
      = some (.error (((stepErrors [] (fun q pos => matchesF 7 [] q ['a', 'b'] pos)
          (.pat c7b)
          [([.leaf (.terminal none (.lit ['a', 'b'])) ['a', 'b']], 2),
           ([.leaf (.terminal none (.lit ['a'])) ['a']], 1)]).getLast?).getD
            ⟨c7seq, ['a', 'b'], 0⟩)) ∧
    some (⟨c7b, ['a', 'b'], 1⟩ : BadS)
      = (stepErrors [] (fun q pos => matchesF 7 [] q ['a', 'b'] pos) (.pat c7b)
          [([.leaf (.terminal none (.lit ['a', 'b'])) ['a', 'b']], 2),
           ([.leaf (.terminal none (.lit ['a'])) ['a']], 1)]).getLast? :=
  ⟨(c7_last_recorded_error [] _ (.pat c7b) []
      [([.leaf (.terminal none (.lit ['a', 'b'])) ['a', 'b']], 2),
       ([.leaf (.terminal none (.lit ['a'])) ['a']], 1)] ⟨c7seq, ['a', 'b'], 0⟩
      (some ⟨c7b, ['a', 'b'], 1⟩) (by decide)).1,
   (c7_last_recorded_error [] _ (.pat c7b) []
      [([.leaf (.terminal none (.lit ['a', 'b'])) ['a', 'b']], 2),
       ([.leaf (.terminal none (.lit ['a'])) ['a']], 1)] ⟨c7seq, ['a', 'b'], 0⟩
      (some ⟨c7b, ['a', 'b'], 1⟩) (by decide)).2⟩

/-- Claim C8: a plain finite alternation tries every listed alternative in
order regardless of earlier outcomes, yields all candidates of every
successful alternative folded with its name, and raises `BadState` for the
alternation itself exactly when no alternative matched. -/
theorem c8_finite_alternation (f : Nat) (g : Grammar) (nm : Option String)
    (r0 : Ref) (rest : List Ref) (s : Str) (start : Nat) (rs : List MRes)
    (hres : altResults g (fun q pos => matchesF f g q s pos) start (r0 :: rest) = some rs)
    (hlen : rest.length < f) :
    matchesF (f + 1) g (.pipe nm (r0 :: rest)) s start
      = some (if anyOk rs then .ok (unionCands nm rs)
              else .error ⟨.pipe nm (r0 :: rest), s, start⟩) := by
  rw [matchesF_pipe_cons f g nm (r0 :: rest) r0 rest s start (by simp [pad])]
  obtain ⟨lf, rfl⟩ : ∃ l, f = l + 1 := ⟨f - 1, by omega⟩
  rw [pipeLoop_fixed g _ _ s start rest r0 rs [] false lf hres (by omega)]
  simp [patName]

/-- Claim C8 witness: on `g8` over `xy`, the first and third alternatives
match (one and two characters), the middle one fails, and the alternation
yields both successes in listed order. -/
theorem c8_finite_alternation_witness :
    matchesF 6 g8 (.pipe (some "r") [.name "a", .name "b", .name "c"]) ['x', 'y'] 0
      = some (.ok [(.tag "r" (.leaf (.terminal (some "a") (.lit ['x'])) ['x']), 1),
                   (.tag "r" (.leaf (.terminal (some "c") (.lit ['x', 'y'])) ['x', 'y']), 2)]) := by
  have h := c8_finite_alternation 5 g8 (some "r") (.name "a") [.name "b", .name "c"]
    ['x', 'y'] 0
    [.ok [(.leaf (.terminal (some "a") (.lit ['x'])) ['x'], 1)],
     .error ⟨.terminal (some "b") (.lit ['z']), ['x', 'y'], 0⟩,
     .ok [(.leaf (.terminal (some "c") (.lit ['x', 'y'])) ['x', 'y'], 2)]]
    (by decide) (by decide)
  exact h.trans (by decide)

/-- Claim C9: after `Grammar` construction, every pattern looked up by name
carries that name as its bound name (the `parse`/`is_valid`/`matches`
embedding never rebinds names: the registry is read-only after
construction). -/
theorem c9_registration_binds_names (l : List (String × Pat)) (n : String) (p : Pat)
    (h : lookupG (mkGrammar l) n = some p) : patName p = some n := by
  induction l with
  | nil => simp [mkGrammar, lookupG] at h
  | cons hd tl ih =>
    simp only [mkGrammar, List.map_cons] at h
    simp only [lookupG] at h
    by_cases hh : hd.1 = n
    · rw [if_pos hh] at h
      cases h
      rw [patName_setName, hh]
    · rw [if_neg hh] at h
      exact ih (by simpa [mkGrammar] using h)

/-- Claim C9 witness: the binding invariant evaluated on a one-rule
grammar. -/
theorem c9_registration_binds_names_witness :
    patName (Pat.terminal (some "a") (.lit ['x'])) = some "a" :=
  c9_registration_binds_names [("a", .terminal none (.lit ['x']))] "a"
    (.terminal (some "a") (.lit ['x'])) (by decide)

/-- Claim C10: every candidate a sequence yields is a (named or bare) child
list containing only truthy entries — the fold drops `None` and every other
falsy sub-result such as the empty list of a zero-width anonymous
repetition. -/
theorem c10_seq_children_truthy (f : Nat) (g : Grammar) (nm : Option String)
    (subs : List Ref) (s : Str) (start : Nat) (res : List Cand) (t : Tree) (pos : Nat)
    (hm : matchesF f g (.seq nm subs) s start = some (.ok res))
    (ht : (t, pos) ∈ res) :
    ∃ ts, t = (match nm with | some n => Tree.node n ts | none => Tree.list ts) ∧
      ts.all truthy = true := by
  obtain ⟨k, rfl⟩ : ∃ k, f = k + 1 := by
    cases f with
    | zero => exact absurd hm (by simp [matchesF])
    | succ k => exact ⟨k, rfl⟩
  rw [matchesF_seq] at hm
  unfold seqMatches at hm
  cases hrun : seqRun g (fun q pos => matchesF k g q s pos) (pad subs) [([], start)]
      ⟨.seq nm subs, s, start⟩ with
  | none => rw [hrun] at hm; exact absurd hm (by simp)
  | some out =>
    rw [hrun] at hm
    cases out with
    | error e => exact absurd hm (by simp)
    | ok pr =>
      obtain ⟨macc, le⟩ := pr
      simp only [Option.some_inj, Except.ok.injEq] at hm
      rw [← hm] at ht
      obtain ⟨w, hw, heq⟩ := List.mem_map.mp ht
      have ht' : t = foldSeq nm w.1 := by
        have := congrArg (fun c : Cand => c.1) heq
        simpa [patName] using this.symm
      refine ⟨w.1.filter truthy, ?_, all_truthy_filter _⟩
      rw [ht']
      cases nm <;> rfl

/-- Claim C10 witness: the theorem evaluated on `g10`, whose anonymous `Star`
matches zero-width between two terminals; the parse tree contains no entry
for it at all. -/
theorem c10_seq_children_truthy_witness :
    (∃ ts, Tree.node "r" [c10Leaf, c10Leaf] = Tree.node "r" ts ∧ ts.all truthy = true) ∧
    parseF 9 g10 "r" ['x', 'x'] = some (.ok (.node "r" [c10Leaf, c10Leaf])) :=
  ⟨c10_seq_children_truthy 9 g10 (some "r")
      [.name "a", .pat (.star none [.name "b"]), .name "a"] ['x', 'x'] 0
      [(.node "r" [c10Leaf, c10Leaf], 2)] (.node "r" [c10Leaf, c10Leaf]) 2
      (by decide) (by decide),
   by decide⟩

/-- Taking a prefix by predicate never yields more elements than the list. -/
theorem takeWhile_length_le {α : Type} (p : α → Bool) :
    ∀ (l : List α), (l.takeWhile p).length ≤ l.length := by
  intro l
  induction l with
  | nil => simp
  | cons a t ih =>
    by_cases h : p a
    · simp only [List.takeWhile_cons, h, if_true, List.length_cons]
      omega
    · simp [List.takeWhile_cons, h]

/-- A successful literal match is no longer than the rest of the input. -/
theorem litMatch_length : ∀ (cs rem : List Char), litMatch cs rem = true →
    cs.length ≤ rem.length := by
  intro cs
  induction cs with
  | nil => intro rem h; simp
  | cons c cst ih =>
    intro rem h
    cases rem with
    | nil => simp [litMatch] at h
    | cons d rest =>
      simp only [litMatch, Bool.and_eq_true] at h
      have := ih rest h.2
      simp only [List.length_cons]
      omega

/-- The terminal primitive never consumes more than the remaining input. -/
theorem primExec_le : ∀ (pr : Prim) (rem : List Char) (k : Nat),
    primExec pr rem = some k → k ≤ rem.length := by
  intro pr
  induction pr with
  | lit cs =>
    intro rem k h
    simp only [primExec] at h
    by_cases hm : litMatch cs rem
    · rw [if_pos hm] at h
      cases h
      exact litMatch_length cs rem hm
    · rw [if_neg hm] at h
      exact absurd h (by simp)
  | eofP =>
    intro rem k h
    simp only [primExec] at h
    by_cases he : rem.isEmpty
    · rw [if_pos he] at h
      cases h
      exact Nat.zero_le _
    · rw [if_neg he] at h
      exact absurd h (by simp)
  | padded p ih =>
    intro rem k h
    simp only [primExec] at h
    cases hp : primExec p (rem.drop ((rem.takeWhile isWs).length)) with
    | none => rw [hp] at h; exact absurd h (by simp)
    | some k' =>
      rw [hp] at h
      simp only [Option.some_inj] at h
      have ha : (rem.takeWhile isWs).length ≤ rem.length := takeWhile_length_le _ _
      have hk' : k' ≤ rem.length - (rem.takeWhile isWs).length := by
        have h2 := ih (rem.drop ((rem.takeWhile isWs).length)) k' hp
        rw [List.length_drop] at h2
        exact h2
      have hb : (((rem.drop ((rem.takeWhile isWs).length)).drop k').takeWhile isWs).length
          ≤ rem.length - (rem.takeWhile isWs).length - k' := by
        have h3 := takeWhile_length_le isWs ((rem.drop ((rem.takeWhile isWs).length)).drop k')
        rw [List.length_drop, List.length_drop] at h3
        exact h3
      omega

/-- Falsy match results carry no leaf text. -/
theorem truthy_false_text (t : Tree) (h : truthy t = false) : leafText t = [] := by
  cases t with
  | nil => rfl
  | list ts =>
    cases ts with
    | nil => rfl
    | cons a l => simp [truthy] at h
  | leaf p txt => simp [truthy] at h
  | node n ts => simp [truthy] at h
  | tag n t' => simp [truthy] at h

/-- Concatenating leaf text distributes over list append. -/
theorem leafTextList_append : ∀ (a b : List Tree),
    leafTextList (a ++ b) = leafTextList a ++ leafTextList b := by
  intro a
  induction a with
  | nil => intro b; rfl
  | cons t ts ih =>
    intro b
    simp only [List.cons_append, leafTextList]
    simp [ih, List.append_assoc]

/-- Dropping falsy entries does not change the concatenated leaf text. -/
theorem leafTextList_filter_truthy : ∀ (l : List Tree),
    leafTextList (l.filter truthy) = leafTextList l := by
  intro l
  induction l with
  | nil => rfl
  | cons t ts ih =>
    by_cases h : truthy t
    · simp only [List.filter_cons, h, if_true, leafTextList, ih]
    · simp only [List.filter_cons, h, Bool.false_eq_true, if_false, leafTextList, ih]
      rw [truthy_false_text t (by simpa using h)]
      simp

/-- The fold of a sequence preserves the concatenated leaf text. -/
theorem foldSeq_text (nm : Option String) (w : List Tree) :
    leafText (foldSeq nm w) = leafTextList w := by
  cases nm <;> simp [foldSeq, leafText, leafTextList_filter_truthy]

/-- The fold of an alternation preserves the leaf text. -/
theorem foldPipe_text (nm : Option String) (t : Tree) :
    leafText (foldPipe nm t) = leafText t := by
  cases nm <;> rfl

/-- The empty slice. -/
theorem sliceS_refl (s : Str) (a : Nat) : sliceS s a a = [] := by
  simp [sliceS]

/-- Adjacent slices concatenate. -/
theorem sliceS_append (s : Str) (a b c : Nat) (hab : a ≤ b) (hbc : b ≤ c) :
    sliceS s a b ++ sliceS s b c = sliceS s a c := by
  unfold sliceS
  have hsum : c - a = (b - a) + (c - b) := by omega
  rw [hsum, List.take_add, List.drop_drop]
  have : a + (b - a) = b := by omega
  rw [this]

/-- One `Seq.matches` step preserves pair soundness: every extended pair's
children text is the slice up to its new position. -/
theorem seqStep_sound (g : Grammar) (m : Matcher) (s : Str) (start : Nat) (r : Ref)
    (hm : MatcherSound s m) :
    ∀ (macc ms : List (List Tree × Nat)) (err : Option BadS),
    seqStep g m r macc = some (ms, err) →
    (∀ wp ∈ macc, PairSound s start wp) →
    ∀ wp ∈ ms, PairSound s start wp := by
  intro macc
  induction macc with
  | nil =>
    intro ms err h hinv
    simp only [seqStep_nil, Option.some_inj, Prod.mk.injEq] at h
    rw [← h.1]
    intro wp hwp
    exact absurd hwp (List.not_mem_nil wp)
  | cons wph rest ih =>
    intro ms err h hinv
    obtain ⟨w, pos⟩ := wph
    cases hr : resolveRef g r with
    | none => simp [seqStep, hr] at h
    | some q =>
      cases hq : m q pos with
      | none => simp [seqStep, hr, hq] at h
      | some res =>
        cases res with
        | error e =>
          cases hrest : seqStep g m r rest with
          | none => simp [seqStep, hr, hq, hrest] at h
          | some pr =>
            obtain ⟨ms0, err0⟩ := pr
            simp only [seqStep, hr, hq, hrest, Option.some_inj, Prod.mk.injEq] at h
            rw [← h.1]
            exact ih ms0 err0 hrest (fun wp hwp => hinv wp (List.mem_cons_of_mem _ hwp))
        | ok l =>
          cases hrest : seqStep g m r rest with
          | none => simp [seqStep, hr, hq, hrest] at h
          | some pr =>
            obtain ⟨ms0, err0⟩ := pr
            simp only [seqStep, hr, hq, hrest, Option.some_inj, Prod.mk.injEq] at h
            rw [← h.1]
            intro wp hwp
            rcases List.mem_append.mp hwp with hmem | hmem
            · obtain ⟨c, hc, rfl⟩ := List.mem_map.mp hmem
              obtain ⟨ht1, ht2, ht3⟩ := hinv (w, pos) (List.mem_cons_self _ _)
              obtain ⟨hc1, hc2, hc3⟩ := hm q pos l hq c hc
              refine ⟨?_, le_trans ht2 hc2, ?_⟩
              · rw [leafTextList_append]
                simp only [leafTextList, List.append_nil]
                rw [ht1, hc1]
                exact sliceS_append s start pos c.2 ht2 hc2
              · have hmx : max pos s.length ≤ max start s.length :=
                  max_le ht3 (le_max_right _ _)
                exact le_trans hc3 hmx
            · exact ih ms0 err0 hrest
                (fun wp' hwp' => hinv wp' (List.mem_cons_of_mem _ hwp')) wp hmem

/-- Running all sub-patterns of a sequence preserves pair soundness. -/
theorem seqRun_sound (g : Grammar) (m : Matcher) (s : Str) (start : Nat)
    (hm : MatcherSound s m) :
    ∀ (subs : List Ref) (macc : List (List Tree × Nat)) (le : BadS)
      (out : List (List Tree × Nat) × BadS),
    seqRun g m subs macc le = some (.ok out) →
    (∀ wp ∈ macc, PairSound s start wp) →
    ∀ wp ∈ out.1, PairSound s start wp := by
  intro subs
  induction subs with
  | nil =>
    intro macc le out h hinv
    simp only [seqRun_nil, Option.some_inj, Except.ok.injEq] at h
    rw [← h]
    exact hinv
  | cons r rs ih =>
    intro macc le out h hinv
    rw [seqRun_cons] at h
    cases hstep : seqStep g m r macc with
    | none =>
      simp only [hstep] at h
      exact absurd h (by simp)
    | some pr =>
      obtain ⟨ms, err⟩ := pr
      simp only [hstep] at h
      by_cases hemp : ms.isEmpty
      · rw [if_pos hemp] at h
        exact absurd h (by simp)
      · rw [if_neg hemp] at h
        exact ih ms _ out h (seqStep_sound g m s start r hm macc ms err hstep hinv)

/-- The alternation loop preserves candidate soundness at its start
position. -/
theorem pipeLoop_sound (g : Grammar) (m : Matcher) (self : Pat) (s : Str) (start : Nat)
    (hm : MatcherSound s m) :
    ∀ (lf : Nat) (r : Ref) (prod : AltProd) (anyM : Bool) (acc res : List Cand),
    pipeLoop g m self s start lf r prod anyM acc = some (.ok res) →
    (∀ c ∈ acc, CandSound s start c) →
    ∀ c ∈ res, CandSound s start c := by
  intro lf
  induction lf with
  | zero => intro r prod anyM acc res h hinv; simp [pipeLoop] at h
  | succ lf ih =>
    intro r prod anyM acc res h hinv
    cases hr : resolveRef g r with
    | none => simp [pipeLoop, hr] at h
    | some q =>
      cases hq : m q start with
      | none => simp [pipeLoop, hr, hq] at h
      | some res0 =>
        cases res0 with
        | ok l =>
          rw [pipeLoop_succ_ok g m self s start lf r q prod anyM acc l hr hq] at h
          have hacc' : ∀ c ∈ acc ++ l.map (fun c => (foldPipe (patName self) c.1, c.2)),
              CandSound s start c := by
            intro c hc
            rcases List.mem_append.mp hc with hmem | hmem
            · exact hinv c hmem
            · obtain ⟨c0, hc0, rfl⟩ := List.mem_map.mp hmem
              obtain ⟨h1, h2, h3⟩ := hm q start l hq c0 hc0
              exact ⟨by rw [foldPipe_text]; exact h1, h2, h3⟩
          cases hnext : prodNext prod true with
          | some rp =>
            obtain ⟨r', prod'⟩ := rp
            simp only [hnext] at h
            exact ih r' prod' true _ res h hacc'
          | none =>
            simp only [hnext, Option.some_inj, Except.ok.injEq] at h
            rw [← h]
            exact hacc'
        | error e =>
          rw [pipeLoop_succ_err g m self s start lf r q prod anyM acc e hr hq] at h
          cases hnext : prodNext prod false with
          | some rp =>
            obtain ⟨r', prod'⟩ := rp
            simp only [hnext] at h
            exact ih r' prod' anyM acc res h hinv
          | none =>
            simp only [hnext] at h
            by_cases hA : anyM
            · rw [if_pos (by simp [hA])] at h
              simp only [Option.some_inj, Except.ok.injEq] at h
              rw [← h]
              exact hinv
            · rw [if_neg (by simp [hA])] at h
              exact absurd h (by simp)

/-- Soundness of the engine at every fuel: every candidate's leaf text is
exactly the consumed slice, positions never move backwards, and ends stay
within the input. -/
theorem matchesF_sound (g : Grammar) (s : Str) :
    ∀ (f : Nat), MatcherSound s (fun q pos => matchesF f g q s pos) := by
  intro f
  induction f with
  | zero => intro q pos res h; simp [matchesF] at h
  | succ f ih =>
    intro q pos res h c hc
    simp only [] at h
    cases q with
    | terminal nm pr =>
      cases hp : primExec pr (s.drop pos) with
      | none =>
        simp only [matchesF, hp] at h
        exact absurd h (by simp)
      | some k =>
        simp only [matchesF, hp, Option.some_inj, Except.ok.injEq] at h
        rw [← h] at hc
        simp only [List.mem_singleton] at hc
        rw [hc]
        have hk := primExec_le pr (s.drop pos) k hp
        rw [List.length_drop] at hk
        refine ⟨?_, by omega, ?_⟩
        · simp only [leafText, sliceS, Nat.add_sub_cancel_left]
        · rcases Nat.le_total pos s.length with hle | hle
          · rw [Nat.max_eq_right hle]; omega
          · rw [Nat.max_eq_left hle]; omega
    | empty nm =>
      simp only [matchesF, Option.some_inj, Except.ok.injEq] at h
      rw [← h] at hc
      simp only [List.mem_singleton] at hc
      rw [hc]
      exact ⟨by simp [leafText, sliceS_refl], le_refl _, le_max_left _ _⟩
    | seq nm subs =>
      rw [matchesF_seq] at h
      unfold seqMatches at h
      cases hrun : seqRun g (fun q pos => matchesF f g q s pos) (pad subs)
          [([], pos)] ⟨.seq nm subs, s, pos⟩ with
      | none =>
        simp only [hrun] at h
        exact absurd h (by simp)
      | some out =>
        cases out with
        | error e =>
          simp only [hrun] at h
          exact absurd h (by simp)
        | ok pr =>
          simp only [hrun, Option.some_inj, Except.ok.injEq] at h
          rw [← h] at hc
          obtain ⟨w, hw, rfl⟩ := List.mem_map.mp hc
          have hinit : ∀ wp ∈ ([([], pos)] : List (List Tree × Nat)), PairSound s pos wp := by
            intro wp hwp
            simp only [List.mem_singleton] at hwp
            rw [hwp]
            exact ⟨by simp [leafTextList, sliceS_refl], le_refl _, le_max_left _ _⟩
          obtain ⟨h1, h2, h3⟩ := seqRun_sound g _ s pos ih (pad subs) [([], pos)] _ pr hrun hinit w hw
          refine ⟨?_, h2, h3⟩
          have hpn : patName (Pat.seq nm subs) = nm := rfl
          rw [hpn, foldSeq_text]
          exact h1
    | pipe nm subs =>
      cases hpad : pad subs with
      | nil =>
        simp only [matchesF, hpad] at h
        exact absurd h (by simp)
      | cons r rs =>
        rw [matchesF_pipe_cons f g nm subs r rs s pos hpad] at h
        exact pipeLoop_sound g _ (.pipe nm subs) s pos ih f r (.fixed rs) false [] res h
          (by simp) c hc
    | star nm subs =>
      rw [matchesF_star] at h
      exact pipeLoop_sound g _ (.star nm subs) s pos ih f _ _ false [] res h (by simp) c hc
    | plus nm subs =>
      rw [matchesF_plus] at h
      exact pipeLoop_sound g _ (.plus nm subs) s pos ih f _ _ false [] res h (by simp) c hc

/-- Claim C4: for every candidate any pattern's `matches` yields, the
concatenation in tree order of the terminal leaves' matched text equals the
consumed slice of the input, exactly. -/
theorem c4_roundtrip (f : Nat) (g : Grammar) (p : Pat) (s : Str) (start : Nat)
    (res : List Cand) (hm : matchesF f g p s start = some (.ok res)) :
    ∀ c ∈ res, leafText c.1 = sliceS s start c.2 ∧ start ≤ c.2 := by
  intro c hc
  obtain ⟨h1, h2, h3⟩ := matchesF_sound g s f p start res hm c hc
  exact ⟨h1, h2⟩

/-- Claim C4 witness: a padded terminal consuming ` + ` — the captured
whitespace is part of both the leaf text and the slice. -/
theorem c4_roundtrip_witness :
    leafText (.leaf g4op [' ', '+', ' ']) = sliceS [' ', '+', ' '] 0 3 ∧ 0 ≤ 3 :=
  c4_roundtrip 1 g4 g4op [' ', '+', ' '] 0 [(.leaf g4op [' ', '+', ' '], 3)]
    (by decide) (.leaf g4op [' ', '+', ' '], 3) (by simp)

/-- A step of `Seq.matches` only depends on the matcher's assigned results. -/
theorem seqStep_mono (g : Grammar) (m m' : Matcher) (r : Ref) (hle : MatcherLE m m') :
    ∀ (macc : List (List Tree × Nat)) (out : List (List Tree × Nat) × Option BadS),
    seqStep g m r macc = some out → seqStep g m' r macc = some out := by
  intro macc
  induction macc with
  | nil => intro out h; exact h
  | cons wph rest ih =>
    intro out h
    obtain ⟨w, pos⟩ := wph
    cases hr : resolveRef g r with
    | none => simp [seqStep, hr] at h
    | some q =>
      cases hq : m q pos with
      | none => simp [seqStep, hr, hq] at h
      | some res =>
        have hq' : m' q pos = some res := hle q pos res hq
        cases res with
        | error e =>
          cases hrest : seqStep g m r rest with
          | none => simp [seqStep, hr, hq, hrest] at h
          | some pr =>
            simp only [seqStep, hr, hq, hrest] at h
            simp only [seqStep, hr, hq', ih pr hrest]
            exact h
        | ok l =>
          cases hrest : seqStep g m r rest with
          | none => simp [seqStep, hr, hq, hrest] at h
          | some pr =>
            simp only [seqStep, hr, hq, hrest] at h
            simp only [seqStep, hr, hq', ih pr hrest]
            exact h

/-- The sequence loop only depends on the matcher's assigned results. -/
theorem seqRun_mono (g : Grammar) (m m' : Matcher) (hle : MatcherLE m m') :
    ∀ (subs : List Ref) (macc : List (List Tree × Nat)) (le : BadS)
      (out : Except BadS (List (List Tree × Nat) × BadS)),
    seqRun g m subs macc le = some out → seqRun g m' subs macc le = some out := by
  intro subs
  induction subs with
  | nil => intro macc le out h; exact h
  | cons r rs ih =>
    intro macc le out h
    rw [seqRun_cons] at h
    rw [seqRun_cons]
    cases hstep : seqStep g m r macc with
    | none => simp only [hstep] at h; exact absurd h (by simp)
    | some pr =>
      obtain ⟨ms, err⟩ := pr
      simp only [seqStep_mono g m m' r hle macc (ms, err) hstep]
      simp only [hstep] at h
      by_cases hemp : ms.isEmpty
      · rw [if_pos hemp] at h ⊢
        exact h
      · rw [if_neg hemp] at h ⊢
        exact ih ms _ out h

/-- The alternation loop only depends on the matcher's assigned results, and
extra loop fuel never changes an assigned result. -/
theorem pipeLoop_mono (g : Grammar) (m m' : Matcher) (self : Pat) (s : Str)
    (start : Nat) (hle : MatcherLE m m') :
    ∀ (lf lf' : Nat) (r : Ref) (prod : AltProd) (anyM : Bool) (acc : List Cand)
      (out : MRes),
    lf ≤ lf' →
    pipeLoop g m self s start lf r prod anyM acc = some out →
    pipeLoop g m' self s start lf' r prod anyM acc = some out := by
  intro lf
  induction lf with
  | zero => intro lf' r prod anyM acc out hl h; simp [pipeLoop] at h
  | succ lf ih =>
    intro lf' r prod anyM acc out hl h
    obtain ⟨lf'', rfl⟩ : ∃ l, lf' = l + 1 := ⟨lf' - 1, by omega⟩
    cases hr : resolveRef g r with
    | none => simp [pipeLoop, hr] at h
    | some q =>
      cases hq : m q start with
      | none => simp [pipeLoop, hr, hq] at h
      | some res =>
        have hq' : m' q start = some res := hle q start res hq
        cases res with
        | ok l =>
          rw [pipeLoop_succ_ok g m self s start lf r q prod anyM acc l hr hq] at h
          rw [pipeLoop_succ_ok g m' self s start lf'' r q prod anyM acc l hr hq']
          cases hnext : prodNext prod true with
          | some rp =>
            obtain ⟨r', prod'⟩ := rp
            simp only [hnext] at h ⊢
            exact ih lf'' r' prod' true _ out (by omega) h
          | none =>
            simp only [hnext] at h ⊢
            exact h
        | error e =>
          rw [pipeLoop_succ_err g m self s start lf r q prod anyM acc e hr hq] at h
          rw [pipeLoop_succ_err g m' self s start lf'' r q prod anyM acc e hr hq']
          cases hnext : prodNext prod false with
          | some rp =>
            obtain ⟨r', prod'⟩ := rp
            simp only [hnext] at h ⊢
            exact ih lf'' r' prod' anyM acc out (by omega) h
          | none =>
            simp only [hnext] at h ⊢
            exact h

/-- One extra unit of fuel preserves every assigned engine result. -/
theorem matchesF_succ_le (g : Grammar) (s : Str) :
    ∀ (f : Nat),
    MatcherLE (fun q pos => matchesF f g q s pos) (fun q pos => matchesF (f + 1) g q s pos) := by
  intro f
  induction f with
  | zero => intro q pos r h; simp [matchesF] at h
  | succ f ih =>
    intro q pos out h
    simp only [] at h ⊢
    cases q with
    | terminal nm pr => exact h
    | empty nm => exact h
    | seq nm subs =>
      rw [matchesF_seq] at h ⊢
      unfold seqMatches at h ⊢
      cases hrun : seqRun g (fun q pos => matchesF f g q s pos) (pad subs)
          [([], pos)] ⟨.seq nm subs, s, pos⟩ with
      | none => simp only [hrun] at h; exact absurd h (by simp)
      | some o =>
        rw [seqRun_mono g _ _ ih (pad subs) [([], pos)] _ o hrun]
        simp only [hrun] at h
        exact h
    | pipe nm subs =>
      cases hpad : pad subs with
      | nil =>
        simp only [matchesF, hpad] at h ⊢
        exact h
      | cons r rs =>
        rw [matchesF_pipe_cons f g nm subs r rs s pos hpad] at h
        rw [matchesF_pipe_cons (f + 1) g nm subs r rs s pos hpad]
        exact pipeLoop_mono g _ _ _ s pos ih f (f + 1) r (.fixed rs) false [] out
          (by omega) h
    | star nm subs =>
      rw [matchesF_star] at h
      rw [matchesF_star]
      exact pipeLoop_mono g _ _ _ s pos ih f (f + 1) _ _ false [] out (by omega) h
    | plus nm subs =>
      rw [matchesF_plus] at h
      rw [matchesF_plus]
      exact pipeLoop_mono g _ _ _ s pos ih f (f + 1) _ _ false [] out (by omega) h

/-- Fuel monotonicity of the engine: an assigned result persists at any
larger fuel. -/
theorem matchesF_mono (g : Grammar) (s : Str) (f f' : Nat) (hf : f ≤ f')
    (q : Pat) (pos : Nat) (out : MRes)
    (h : matchesF f g q s pos = some out) : matchesF f' g q s pos = some out := by
  induction f' with
  | zero =>
    have : f = 0 := by omega
    rw [← this]
    exact h
  | succ f' ih =>
    by_cases hf' : f ≤ f'
    · exact matchesF_succ_le g s f' q pos out (ih hf')
    · have : f = f' + 1 := by omega
      rw [← this]
      exact h

/-- Unfolding the sequence engine to its working-list run. -/
theorem matchesF_seq_run (f : Nat) (g : Grammar) (nm : Option String) (subs : List Ref)
    (s : Str) (start : Nat) :
    matchesF (f + 1) g (.seq nm subs) s start
      = match seqRun g (fun q pos => matchesF f g q s pos) (pad subs) [([], start)]
          ⟨.seq nm subs, s, start⟩ with
        | none => none
        | some (.error e) => some (.error e)
        | some (.ok (macc, _)) =>
          some (.ok (macc.map (fun w => (foldSeq nm w.1, w.2)))) := rfl

/-- The sequence loop splits over an appended element list. -/
theorem seqRun_append (g : Grammar) (m : Matcher) :
    ∀ (L1 L2 : List Ref) (macc : List (List Tree × Nat)) (le : BadS),
    seqRun g m (L1 ++ L2) macc le
      = match seqRun g m L1 macc le with
        | none => none
        | some (.error e) => some (.error e)
        | some (.ok (ms, le')) => seqRun g m L2 ms le' := by
  intro L1
  induction L1 with
  | nil => intro L2 macc le; rfl
  | cons r rs ih =>
    intro L2 macc le
    simp only [List.cons_append, seqRun_cons]
    cases hstep : seqStep g m r macc with
    | none => rfl
    | some pr =>
      obtain ⟨ms, err⟩ := pr
      dsimp only []
      by_cases hemp : ms.isEmpty
      · rw [if_pos hemp, if_pos hemp]
      · rw [if_neg hemp, if_neg hemp]
        exact ih L2 ms (err.getD le)

/-- Growing the producer base by one step shifts the chain index. -/
theorem chainElems_shift (a0 step : List Ref) :
    ∀ i, chainElems (a0 ++ step) step i = chainElems a0 step (i + 1) := by
  intro i
  induction i with
  | zero => rfl
  | succ i ih => simp only [chainElems, ih]

/-- Every element of a chain alternative comes from the base or the step. -/
theorem chainElems_mem (a0 step : List Ref) :
    ∀ (i : Nat) (x : Ref), x ∈ chainElems a0 step i → x ∈ a0 ∨ x ∈ step := by
  intro i
  induction i with
  | zero => intro x hx; exact Or.inl hx
  | succ i ih =>
    intro x hx
    simp only [chainElems] at hx
    rcases List.mem_append.mp hx with hx | hx
    · exact ih x hx
    · exact Or.inr hx

/-- A chain with singleton step is the base plus replicated copies. -/
theorem chainElems_replicate (a0 : List Ref) (r : Ref) :
    ∀ (i : Nat), chainElems a0 [r] i = a0 ++ List.replicate i r := by
  intro i
  induction i with
  | zero => simp [chainElems]
  | succ i ih =>
    simp only [chainElems, ih, List.replicate_succ', List.append_assoc]

/-- A surviving working list of a sequence run is never empty. -/
theorem seqRun_ok_ne_nil (g : Grammar) (m : Matcher) :
    ∀ (subs : List Ref) (macc : List (List Tree × Nat)) (le : BadS)
      (out : List (List Tree × Nat) × BadS),
    seqRun g m subs macc le = some (.ok out) → macc ≠ [] → out.1 ≠ [] := by
  intro subs
  induction subs with
  | nil =>
    intro macc le out h hne
    simp only [seqRun_nil, Option.some_inj, Except.ok.injEq] at h
    rw [← h]
    exact hne
  | cons r rs ih =>
    intro macc le out h hne
    rw [seqRun_cons] at h
    cases hstep : seqStep g m r macc with
    | none =>
      simp only [hstep] at h
      exact absurd h (by simp)
    | some pr =>
      obtain ⟨ms, err⟩ := pr
      simp only [hstep] at h
      by_cases hemp : ms.isEmpty
      · rw [if_pos hemp] at h
        exact absurd h (by simp)
      · rw [if_neg hemp] at h
        exact ih ms _ out h (by simpa [List.isEmpty_iff] using hemp)

/-- A step over a resolvable, everywhere-defined sub-pattern is defined. -/
theorem seqStep_defined (g : Grammar) (m : Matcher) (r : Ref) (q : Pat)
    (hr : resolveRef g r = some q) (hdef : ∀ pos, m q pos ≠ none) :
    ∀ (macc : List (List Tree × Nat)), seqStep g m r macc ≠ none := by
  intro macc
  induction macc with
  | nil => simp [seqStep_nil]
  | cons wph rest ih =>
    obtain ⟨w, pos⟩ := wph
    cases hq : m q pos with
    | none => exact absurd hq (hdef pos)
    | some res =>
      cases res with
      | error e =>
        rw [seqStep_cons_err g m r q w pos rest e hr hq]
        cases hrest : seqStep g m r rest with
        | none => exact absurd hrest ih
        | some pr => simp
      | ok l =>
        rw [seqStep_cons_ok g m r q w pos rest l hr hq]
        cases hrest : seqStep g m r rest with
        | none => exact absurd hrest ih
        | some pr => simp

/-- A sequence run over resolvable, defined sub-patterns is defined. -/
theorem seqRun_defined (g : Grammar) (m : Matcher) :
    ∀ (L : List Ref) (macc : List (List Tree × Nat)) (le : BadS),
    (∀ x ∈ L, ∃ qx, resolveRef g x = some qx ∧ ∀ pos, m qx pos ≠ none) →
    seqRun g m L macc le ≠ none := by
  intro L
  induction L with
  | nil => intro macc le hL; simp [seqRun_nil]
  | cons r rs ih =>
    intro macc le hL
    rw [seqRun_cons]
    obtain ⟨q, hr, hdef⟩ := hL r (List.mem_cons_self _ _)
    cases hstep : seqStep g m r macc with
    | none => exact absurd hstep (seqStep_defined g m r q hr hdef macc)
    | some pr =>
      obtain ⟨ms, err⟩ := pr
      dsimp only []
      by_cases hemp : ms.isEmpty
      · rw [if_pos hemp]
        simp
      · rw [if_neg hemp]
        exact ih ms _ (fun x hx => hL x (List.mem_cons_of_mem _ hx))

/-- A step over a strictly-advancing sub-pattern raises the lower bound of
every surviving position by one. -/
theorem seqStep_advance (g : Grammar) (m : Matcher) (r : Ref) (q : Pat)
    (hr : resolveRef g r = some q)
    (hadv : ∀ pos l, m q pos = some (.ok l) → ∀ c ∈ l, pos < c.2) :
    ∀ (macc ms : List (List Tree × Nat)) (err : Option BadS) (n : Nat),
    seqStep g m r macc = some (ms, err) →
    (∀ wp ∈ macc, n ≤ wp.2) → ∀ wp ∈ ms, n + 1 ≤ wp.2 := by
  intro macc
  induction macc with
  | nil =>
    intro ms err n h hn
    simp only [seqStep_nil, Option.some_inj, Prod.mk.injEq] at h
    rw [← h.1]
    intro wp hwp
    exact absurd hwp (List.not_mem_nil wp)
  | cons wph rest ih =>
    intro ms err n h hn
    obtain ⟨w, pos⟩ := wph
    cases hq : m q pos with
    | none => simp [seqStep, hr, hq] at h
    | some res =>
      cases res with
      | error e =>
        cases hrest : seqStep g m r rest with
        | none => simp [seqStep, hr, hq, hrest] at h
        | some pr =>
          obtain ⟨ms0, err0⟩ := pr
          simp only [seqStep, hr, hq, hrest, Option.some_inj, Prod.mk.injEq] at h
          rw [← h.1]
          exact ih ms0 err0 n hrest (fun wp hwp => hn wp (List.mem_cons_of_mem _ hwp))
      | ok l =>
        cases hrest : seqStep g m r rest with
        | none => simp [seqStep, hr, hq, hrest] at h
        | some pr =>
          obtain ⟨ms0, err0⟩ := pr
          simp only [seqStep, hr, hq, hrest, Option.some_inj, Prod.mk.injEq] at h
          rw [← h.1]
          intro wp hwp
          rcases List.mem_append.mp hwp with hmem | hmem
          · obtain ⟨c, hc, rfl⟩ := List.mem_map.mp hmem
            have h1 := hn (w, pos) (List.mem_cons_self _ _)
            have h2 := hadv pos l hq c hc
            simp only at h1 ⊢
            omega
          · exact ih ms0 err0 n hrest (fun wp' hwp' => hn wp' (List.mem_cons_of_mem _ hwp')) wp hmem

/-- Running `i` replicated copies of a strictly-advancing sub-pattern raises
every surviving position by at least `i`. -/
theorem seqRun_replicate_advance (g : Grammar) (m : Matcher) (r : Ref) (q : Pat)
    (hr : resolveRef g r = some q)
    (hadv : ∀ pos l, m q pos = some (.ok l) → ∀ c ∈ l, pos < c.2) :
    ∀ (i : Nat) (macc : List (List Tree × Nat)) (le : BadS)
      (out : List (List Tree × Nat) × BadS) (n : Nat),
    seqRun g m (List.replicate i r) macc le = some (.ok out) →
    (∀ wp ∈ macc, n ≤ wp.2) → ∀ wp ∈ out.1, n + i ≤ wp.2 := by
  intro i
  induction i with
  | zero =>
    intro macc le out n h hn
    simp only [List.replicate_zero, seqRun_nil, Option.some_inj, Except.ok.injEq] at h
    rw [← h]
    simpa using hn
  | succ i ih =>
    intro macc le out n h hn
    rw [List.replicate_succ, seqRun_cons] at h
    cases hstep : seqStep g m r macc with
    | none =>
      simp only [hstep] at h
      exact absurd h (by simp)
    | some pr =>
      obtain ⟨ms, err⟩ := pr
      simp only [hstep] at h
      by_cases hemp : ms.isEmpty
      · rw [if_pos hemp] at h
        exact absurd h (by simp)
      · rw [if_neg hemp] at h
        have hms := seqStep_advance g m r q hr hadv macc ms err n hstep hn
        have h4 := ih ms _ out (n + 1) h hms
        intro wp hwp
        have h3 := h4 wp hwp
        omega

/-- The repetition producer loop: if the first `k` chain alternatives match
and the `k`-th fails, then `k + 1` loop iterations — one per offered
alternative, with the extra one discovering the failure — suffice for a
result, and any further loop fuel leaves the result unchanged (the producer
stops at the first failure signal). -/
theorem pipeLoop_chain (g : Grammar) (m : Matcher) (self : Pat) (s : Str)
    (start : Nat) (step : List Ref) :
    ∀ (k : Nat) (a0 : List Ref) (anyM : Bool) (acc : List Cand),
    (∀ i, i < k → ∃ l, m (.seq none (chainElems a0 step i)) start = some (.ok l)) →
    (∃ e, m (.seq none (chainElems a0 step k)) start = some (.error e)) →
    (∃ out, pipeLoop g m self s start (k + 1) (.pat (.seq none a0)) (.grow a0 step)
        anyM acc = some out) ∧
    (∀ lf, k + 1 ≤ lf →
      pipeLoop g m self s start lf (.pat (.seq none a0)) (.grow a0 step) anyM acc
        = pipeLoop g m self s start (k + 1) (.pat (.seq none a0)) (.grow a0 step) anyM acc) := by
  intro k
  induction k with
  | zero =>
    intro a0 anyM acc hsucc hfail
    obtain ⟨e, he⟩ := hfail
    have hres : ∀ lf, pipeLoop g m self s start (lf + 1) (.pat (.seq none a0))
        (.grow a0 step) anyM acc
        = if anyM then some (.ok acc) else some (.error ⟨self, s, start⟩) := by
      intro lf
      rw [pipeLoop_succ_err g m self s start lf (.pat (.seq none a0)) (.seq none a0)
        (.grow a0 step) anyM acc e rfl he]
      simp only [prodNext]
    constructor
    · refine ⟨if anyM then .ok acc else .error ⟨self, s, start⟩, ?_⟩
      rw [hres 0]
      cases anyM <;> simp
    · intro lf hlf
      obtain ⟨lf', rfl⟩ : ∃ l, lf = l + 1 := ⟨lf - 1, by omega⟩
      rw [hres lf', hres 0]
  | succ k ih =>
    intro a0 anyM acc hsucc hfail
    obtain ⟨l0, hl0⟩ := hsucc 0 (by omega)
    have hstep1 : ∀ lf, pipeLoop g m self s start (lf + 1) (.pat (.seq none a0))
        (.grow a0 step) anyM acc
        = pipeLoop g m self s start lf (.pat (.seq none (a0 ++ step)))
            (.grow (a0 ++ step) step) true
            (acc ++ l0.map (fun c => (foldPipe (patName self) c.1, c.2))) := by
      intro lf
      rw [pipeLoop_succ_ok g m self s start lf (.pat (.seq none a0)) (.seq none a0)
        (.grow a0 step) anyM acc l0 rfl hl0]
      simp only [prodNext]
    have hsucc' : ∀ i, i < k →
        ∃ l, m (.seq none (chainElems (a0 ++ step) step i)) start = some (.ok l) := by
      intro i hik
      rw [chainElems_shift]
      exact hsucc (i + 1) (by omega)
    have hfail' : ∃ e, m (.seq none (chainElems (a0 ++ step) step k)) start
        = some (.error e) := by
      rw [chainElems_shift]
      exact hfail
    have ihh := ih (a0 ++ step) true
      (acc ++ l0.map (fun c => (foldPipe (patName self) c.1, c.2))) hsucc' hfail'
    constructor
    · obtain ⟨out, hout⟩ := ihh.1
      refine ⟨out, ?_⟩
      rw [hstep1 (k + 1)]
      exact hout
    · intro lf hlf
      obtain ⟨lf', rfl⟩ : ∃ l, lf = l + 1 := ⟨lf - 1, by omega⟩
      rw [hstep1 lf', hstep1 (k + 1)]
      exact ihh.2 lf' (by omega)

/-- A chain over a nonempty base is nonempty. -/
theorem chainElems_ne_nil (a0 stp : List Ref) (hne : a0 ≠ []) :
    ∀ i, chainElems a0 stp i ≠ [] := by
  intro i
  induction i with
  | zero => exact hne
  | succ i ih =>
    simp only [chainElems]
    intro h
    exact ih (List.append_eq_nil.mp h).1

/-- Padding a nonempty element list changes nothing. -/
theorem pad_of_ne_nil (L : List Ref) (hne : L ≠ []) : pad L = L := by
  unfold pad
  rw [if_neg]
  simpa [List.isEmpty_iff] using hne

/-- Probing a chain alternative built from `Empty` and a resolvable,
everywhere-defined repeated reference always produces a result. -/
theorem chain_defined (f0 : Nat) (g : Grammar) (r : Ref) (q : Pat) (s : Str)
    (start : Nat) (hr : resolveRef g r = some q)
    (hdef1 : ∀ pos, matchesF (f0 + 1) g q s pos ≠ none)
    (a0 : List Ref) (hne : a0 ≠ [])
    (ha0 : ∀ x ∈ a0, x = Ref.pat (.empty none) ∨ x = r) :
    ∀ i, matchesF (f0 + 2) g (.seq none (chainElems a0 (pad [r]) i)) s start ≠ none := by
  intro i
  rw [show f0 + 2 = f0 + 1 + 1 from rfl, matchesF_seq_run]
  rw [pad_of_ne_nil _ (chainElems_ne_nil a0 (pad [r]) hne i)]
  cases hrun : seqRun g (fun q' pos => matchesF (f0 + 1) g q' s pos)
      (chainElems a0 (pad [r]) i) [([], start)]
      ⟨.seq none (chainElems a0 (pad [r]) i), s, start⟩ with
  | none =>
    refine absurd hrun (seqRun_defined g _ _ _ _ ?_)
    intro x hx
    rcases chainElems_mem a0 (pad [r]) i x hx with hx0 | hxr
    · rcases ha0 x hx0 with rfl | rfl
      · exact ⟨.empty none, rfl, fun pos => by rw [matchesF_empty]; simp⟩
      · exact ⟨q, hr, hdef1⟩
    · have hxr' : x = r := by simpa [pad] using hxr
      rw [hxr']
      exact ⟨q, hr, hdef1⟩
  | some out =>
    cases out with
    | error e => simp
    | ok pr =>
      obtain ⟨macc, le⟩ := pr
      simp

/-- Probing the chain of repetition alternatives finds a first failure: some
`k`-th alternative fails while all earlier ones match. -/
theorem chain_probe (f0 : Nat) (g : Grammar) (r : Ref) (q : Pat) (s : Str)
    (start : Nat) (hr : resolveRef g r = some q)
    (hdef1 : ∀ pos, matchesF (f0 + 1) g q s pos ≠ none)
    (hadv1 : ∀ pos l, matchesF (f0 + 1) g q s pos = some (.ok l) → ∀ c ∈ l, pos < c.2)
    (a0 : List Ref) (hne : a0 ≠ [])
    (ha0 : ∀ x ∈ a0, x = Ref.pat (.empty none) ∨ x = r) :
    ∃ k, (∀ i, i < k →
        ∃ l, matchesF (f0 + 2) g (.seq none (chainElems a0 (pad [r]) i)) s start
          = some (.ok l)) ∧
      (∃ e, matchesF (f0 + 2) g (.seq none (chainElems a0 (pad [r]) k)) s start
          = some (.error e)) := by
  have hpadr : pad [r] = [r] := by simp [pad]
  have hinit : ∀ wp ∈ ([([], start)] : List (List Tree × Nat)), PairSound s start wp := by
    intro wp hwp
    simp only [List.mem_singleton] at hwp
    rw [hwp]
    exact ⟨by simp [leafTextList, sliceS_refl], le_refl _, le_max_left _ _⟩
  have hP : ∃ i, (match matchesF (f0 + 2) g (.seq none (chainElems a0 (pad [r]) i)) s start with
      | some (.error _) => true
      | _ => false) = true := by
    refine ⟨s.length + 1, ?_⟩
    cases hout : matchesF (f0 + 2) g
        (.seq none (chainElems a0 (pad [r]) (s.length + 1))) s start with
    | none => exact absurd hout (chain_defined f0 g r q s start hr hdef1 a0 hne ha0 _)
    | some res =>
      cases res with
      | error e => simp
      | ok l =>
        exfalso
        have hout' := hout
        rw [show f0 + 2 = f0 + 1 + 1 from rfl, matchesF_seq_run,
          pad_of_ne_nil _ (chainElems_ne_nil a0 (pad [r]) hne _)] at hout'
        cases hrun : seqRun g (fun q' pos => matchesF (f0 + 1) g q' s pos)
            (chainElems a0 (pad [r]) (s.length + 1)) [([], start)]
            ⟨.seq none (chainElems a0 (pad [r]) (s.length + 1)), s, start⟩ with
        | none => rw [hrun] at hout'; exact absurd hout' (by simp)
        | some out =>
          cases out with
          | error e => rw [hrun] at hout'; exact absurd hout' (by simp)
          | ok pr =>
            obtain ⟨macc, le⟩ := pr
            rw [hrun] at hout'
            simp only [Option.some_inj, Except.ok.injEq] at hout'
            have hmne : macc ≠ [] :=
              seqRun_ok_ne_nil g _ _ [([], start)] _ (macc, le) hrun (by simp)
            obtain ⟨wp, hwp⟩ := List.exists_mem_of_ne_nil macc hmne
            have hchain : chainElems a0 (pad [r]) (s.length + 1)
                = a0 ++ List.replicate (s.length + 1) r := by
              rw [hpadr]
              exact chainElems_replicate a0 r _
            rw [hchain, seqRun_append] at hrun
            have hadv2 : start + (s.length + 1) ≤ wp.2 := by
              cases hA : seqRun g (fun q' pos => matchesF (f0 + 1) g q' s pos) a0
                  [([], start)]
                  ⟨.seq none (a0 ++ List.replicate (s.length + 1) r), s, start⟩ with
              | none => rw [hA] at hrun; exact absurd hrun (by simp)
              | some outA =>
                cases outA with
                | error e => rw [hA] at hrun; exact absurd hrun (by simp)
                | ok prA =>
                  obtain ⟨msA, leA⟩ := prA
                  rw [hA] at hrun
                  have hsoundA := seqRun_sound g _ s start (matchesF_sound g s (f0 + 1))
                    a0 [([], start)] _ (msA, leA) hA hinit
                  exact seqRun_replicate_advance g _ r q hr hadv1 (s.length + 1) msA leA
                    (macc, le) start hrun (fun wp' hwp' => (hsoundA wp' hwp').2.1) wp hwp
            have hcand : (foldSeq none wp.1, wp.2) ∈ l := by
              rw [← hout']
              exact List.mem_map.mpr ⟨wp, hwp, rfl⟩
            have hbound := matchesF_sound g s (f0 + 2)
              (.seq none (chainElems a0 (pad [r]) (s.length + 1))) start l hout
              (foldSeq none wp.1, wp.2) hcand
            have hb2 := hbound.2.2
            simp only at hb2
            have hmax : max start s.length ≤ start + s.length := by omega
            omega
  refine ⟨Nat.find hP, ?_, ?_⟩
  · intro i hik
    have hni := Nat.find_min hP hik
    cases hout : matchesF (f0 + 2) g (.seq none (chainElems a0 (pad [r]) i)) s start with
    | none => exact absurd hout (chain_defined f0 g r q s start hr hdef1 a0 hne ha0 _)
    | some res =>
      cases res with
      | error e => exact absurd (by simp [hout] : _) hni
      | ok l => exact ⟨l, rfl⟩
  · have hspec := Nat.find_spec hP
    cases hout : matchesF (f0 + 2) g
        (.seq none (chainElems a0 (pad [r]) (Nat.find hP))) s start with
    | none => exact absurd hout (chain_defined f0 g r q s start hr hdef1 a0 hne ha0 _)
    | some res =>
      cases res with
      | error e => exact ⟨e, rfl⟩
      | ok l => rw [hout] at hspec; simp at hspec

/-- Repetition matching terminates whenever the repeated pattern has a result
at every position and strictly consumes input on every match: some fuel
assigns both `Star` and `Plus` a result. -/
theorem repetition_terminates (f0 : Nat) (g : Grammar) (r : Ref) (q : Pat)
    (nmS nmP : Option String) (s : Str) (start : Nat)
    (hr : resolveRef g r = some q)
    (hdef : ∀ pos, matchesF f0 g q s pos ≠ none)
    (hadv : ∀ pos l, matchesF f0 g q s pos = some (.ok l) → ∀ c ∈ l, pos < c.2) :
    (∃ F out, matchesF F g (.star nmS [r]) s start = some out) ∧
    (∃ F out, matchesF F g (.plus nmP [r]) s start = some out) := by
  have hdef1 : ∀ pos, matchesF (f0 + 1) g q s pos ≠ none := by
    intro pos
    cases hv : matchesF f0 g q s pos with
    | none => exact absurd hv (hdef pos)
    | some v =>
      rw [matchesF_mono g s f0 (f0 + 1) (by omega) q pos v hv]
      simp
  have hadv1 : ∀ pos l, matchesF (f0 + 1) g q s pos = some (.ok l) →
      ∀ c ∈ l, pos < c.2 := by
    intro pos l hM
    cases hv : matchesF f0 g q s pos with
    | none => exact absurd hv (hdef pos)
    | some v =>
      have hv1 := matchesF_mono g s f0 (f0 + 1) (by omega) q pos v hv
      rw [hv1, Option.some_inj] at hM
      rw [hM] at hv
      exact hadv pos l hv
  constructor
  · -- Star: base alternative is the zero-width Seq()
    obtain ⟨k, hsucc, hfail⟩ := chain_probe f0 g r q s start hr hdef1 hadv1
      [Ref.pat (.empty none)] (by simp) (by intro x hx; simp only [List.mem_singleton] at hx; exact Or.inl hx)
    have hsuccM : ∀ i, i < k →
        ∃ l, matchesF (f0 + 2 + k) g
          (.seq none (chainElems [Ref.pat (.empty none)] (pad [r]) i)) s start
          = some (.ok l) := by
      intro i hik
      obtain ⟨l, hl⟩ := hsucc i hik
      exact ⟨l, matchesF_mono g s (f0 + 2) (f0 + 2 + k) (by omega) _ _ _ hl⟩
    have hfailM : ∃ e, matchesF (f0 + 2 + k) g
        (.seq none (chainElems [Ref.pat (.empty none)] (pad [r]) k)) s start
        = some (.error e) := by
      obtain ⟨e, he⟩ := hfail
      exact ⟨e, matchesF_mono g s (f0 + 2) (f0 + 2 + k) (by omega) _ _ _ he⟩
    obtain ⟨⟨out, hout⟩, hstab⟩ := pipeLoop_chain g
      (fun q' pos => matchesF (f0 + 2 + k) g q' s pos) (.star nmS [r]) s start
      (pad [r]) k [Ref.pat (.empty none)] false [] hsuccM hfailM
    refine ⟨f0 + 2 + k + 1, out, ?_⟩
    rw [matchesF_star]
    rw [hstab (f0 + 2 + k) (by omega)]
    exact hout
  · -- Plus: base alternative is one copy of the repeated elements
    obtain ⟨k, hsucc, hfail⟩ := chain_probe f0 g r q s start hr hdef1 hadv1
      (pad [r]) (by simp [pad]) (by intro x hx; simp only [pad, List.isEmpty_cons,
        Bool.false_eq_true, if_false, List.mem_singleton] at hx; exact Or.inr hx)
    have hsuccM : ∀ i, i < k →
        ∃ l, matchesF (f0 + 2 + k) g
          (.seq none (chainElems (pad [r]) (pad [r]) i)) s start
          = some (.ok l) := by
      intro i hik
      obtain ⟨l, hl⟩ := hsucc i hik
      exact ⟨l, matchesF_mono g s (f0 + 2) (f0 + 2 + k) (by omega) _ _ _ hl⟩
    have hfailM : ∃ e, matchesF (f0 + 2 + k) g
        (.seq none (chainElems (pad [r]) (pad [r]) k)) s start
        = some (.error e) := by
      obtain ⟨e, he⟩ := hfail
      exact ⟨e, matchesF_mono g s (f0 + 2) (f0 + 2 + k) (by omega) _ _ _ he⟩
    obtain ⟨⟨out, hout⟩, hstab⟩ := pipeLoop_chain g
      (fun q' pos => matchesF (f0 + 2 + k) g q' s pos) (.plus nmP [r]) s start
      (pad [r]) k (pad [r]) false [] hsuccM hfailM
    refine ⟨f0 + 2 + k + 1, out, ?_⟩
    rw [matchesF_plus]
    rw [hstab (f0 + 2 + k) (by omega)]
    exact hout

/-- A terminal always has a result: it either matches or raises. -/
theorem matchesF_terminal_defined (f : Nat) (g : Grammar) (nm : Option String)
    (pr : Prim) (s : Str) (pos : Nat) :
    matchesF (f + 1) g (.terminal nm pr) s pos ≠ none := by
  cases hp : primExec pr (s.drop pos) <;> simp [matchesF, hp]

/-- The rule of `g5` fails at every position of input `x`. -/
theorem g5_always_fails (pos : Nat) :
    matchesF 1 g5 g5p ['x'] pos = some (.error ⟨g5p, ['x'], pos⟩) := by
  cases pos with
  | zero => decide
  | succ n =>
    have hd : (['x'] : Str).drop (n + 1) = [] := List.drop_eq_nil_of_le (by simp)
    show matchesF (0 + 1) g5 (.terminal (some "p") (.lit ['y'])) ['x'] (n + 1) = _
    simp only [matchesF, hd]
    have hpe : primExec (.lit ['y']) [] = none := by decide
    rw [hpe]
    rfl

/-- Claim C6 (amended): the repetition producer stops at the first failure
feedback — with `k` the number of successful alternatives offered (for `Star`
one more than the consecutive matches of the repeated pattern, counting its
zero-width alternative), `k + 1` loop iterations suffice and further fuel
leaves the result unchanged; consequently repetition matching terminates
whenever the repeated pattern is everywhere defined and strictly consumes
input. -/
theorem c6_producer_termination :
    (∀ (g : Grammar) (m : Matcher) (self : Pat) (s : Str) (start : Nat)
        (step a0 : List Ref) (k : Nat) (anyM : Bool) (acc : List Cand),
      (∀ i, i < k → ∃ l, m (.seq none (chainElems a0 step i)) start = some (.ok l)) →
      (∃ e, m (.seq none (chainElems a0 step k)) start = some (.error e)) →
      (∃ out, pipeLoop g m self s start (k + 1) (.pat (.seq none a0)) (.grow a0 step)
          anyM acc = some out) ∧
      (∀ lf, k + 1 ≤ lf →
        pipeLoop g m self s start lf (.pat (.seq none a0)) (.grow a0 step) anyM acc
          = pipeLoop g m self s start (k + 1) (.pat (.seq none a0)) (.grow a0 step)
              anyM acc)) ∧
    (∀ (f0 : Nat) (g : Grammar) (r : Ref) (q : Pat) (nmS nmP : Option String)
        (s : Str) (start : Nat),
      resolveRef g r = some q →
      (∀ pos, matchesF f0 g q s pos ≠ none) →
      (∀ pos l, matchesF f0 g q s pos = some (.ok l) → ∀ c ∈ l, pos < c.2) →
      (∃ F out, matchesF F g (.star nmS [r]) s start = some out) ∧
      (∃ F out, matchesF F g (.plus nmP [r]) s start = some out)) := by
  constructor
  · intro g m self s start step a0 k anyM acc hs hf
    exact pipeLoop_chain g m self s start step k a0 anyM acc hs hf
  · intro f0 g r q nmS nmP s start hr hdef hadv
    exact repetition_terminates f0 g r q nmS nmP s start hr hdef hadv

/-- Claim C6 counterexample: over `g5` on input `x` the repeated rule `p`
matches zero times (it fails immediately), so the claimed bound allows
`k + 1 = 1` offered alternative — but the `Star` loop returns no result
within one iteration and needs a second one: two alternatives are offered,
the zero-width one and the failing probe. -/
theorem c6_counterexample :
    matchesF 1 g5 g5p ['x'] 0 = some (.error ⟨g5p, ['x'], 0⟩) ∧
    pipeLoop g5 (fun q pos => matchesF 3 g5 q ['x'] pos) (.star none [.name "p"]) ['x'] 0
      1 (.pat (.seq none [.pat (.empty none)])) (.grow [.pat (.empty none)] [.name "p"])
      false [] = none ∧
    pipeLoop g5 (fun q pos => matchesF 3 g5 q ['x'] pos) (.star none [.name "p"]) ['x'] 0
      2 (.pat (.seq none [.pat (.empty none)])) (.grow [.pat (.empty none)] [.name "p"])
      false [] = some (.ok [(.list [], 0)]) := by
  refine ⟨?_, ?_, ?_⟩ <;> decide

/-- Claim C6 witness: the amended theorem evaluated on `g5` over `x` — one
successful zero-width alternative, the failing probe second, so two
iterations settle the `Star` loop; and the termination conjunct instantiated
at the same grammar. -/
theorem c6_producer_termination_witness :
    ((∃ out, pipeLoop g5 (fun q pos => matchesF 3 g5 q ['x'] pos)
        (.star none [.name "p"]) ['x'] 0 2
        (.pat (.seq none [.pat (.empty none)]))
        (.grow [.pat (.empty none)] [.name "p"]) false [] = some out) ∧
      (∀ lf, 2 ≤ lf →
        pipeLoop g5 (fun q pos => matchesF 3 g5 q ['x'] pos)
          (.star none [.name "p"]) ['x'] 0 lf
          (.pat (.seq none [.pat (.empty none)]))
          (.grow [.pat (.empty none)] [.name "p"]) false []
        = pipeLoop g5 (fun q pos => matchesF 3 g5 q ['x'] pos)
            (.star none [.name "p"]) ['x'] 0 2
            (.pat (.seq none [.pat (.empty none)]))
            (.grow [.pat (.empty none)] [.name "p"]) false [])) ∧
    ((∃ F out, matchesF F g5 (.star none [.name "p"]) ['x'] 0 = some out) ∧
      (∃ F out, matchesF F g5 (.plus none [.name "p"]) ['x'] 0 = some out)) :=
  ⟨c6_producer_termination.1 g5 (fun q pos => matchesF 3 g5 q ['x'] pos)
      (.star none [.name "p"]) ['x'] 0 [.name "p"] [.pat (.empty none)] 1 false []
      (by
        intro i hik
        have hi : i = 0 := by omega
        subst hi
        exact ⟨[(.list [], 0)], by decide⟩)
      ⟨⟨g5p, ['x'], 0⟩, by decide⟩,
   c6_producer_termination.2 1 g5 (.name "p") g5p none none ['x'] 0
      (by decide)
      (by intro pos; rw [g5_always_fails pos]; simp)
      (by
        intro pos l hM
        rw [g5_always_fails pos] at hM
        exact absurd hM (by simp))⟩

end GrammarPy
